import Mathlib

/-!
# Olament/kernel: ELF segment loader, user-mode launch, PIC masking

A shallow embedding of `src/kernel/src/elf.c` (`load`, `exec_module`) and of
`src/kernel/src/pic.c` (`pic_mask_irq`, `pic_unmask_irq`).

Conventions of the embedding.

* Machine integers are natural numbers; every C operation on `uintptr_t` that can
  wrap is written with an explicit `% 2 ^ 64`, every narrowing to `uint8_t` with
  `% 256`.
* Memory is one byte store indexed by virtual address.  The ELF header, the
  program-header table and the local array `arg` of `exec_module` live in it:
  every `header->...` and `program[i]....` is a little-endian read of the store as it
  is at that point of the run, so a copy that lands on the image or on the array
  is seen by the reads that follow.
* The functions declared in `page.h`, `gdt.h`, `kstdio.h` and `port.h` are not
  part of the sources at hand.  They are parameters (`Collab`): each call is
  recorded in a trace and its result is whatever the parameter says.  `vm_map`
  and `vm_protect` change page tables, not bytes; `unmap_lower_half` may leave
  any bytes behind.  Whether an access faults is not modelled.
* `for` loops whose bound depends on the input take a fuel argument and return
  `none` when it runs out.
-/

set_option linter.unusedVariables false

namespace Kernel

/-! ## Constants and records of `elf.c` -/

def PT_NULL : Nat := 0
def PT_LOAD : Nat := 1

def PF_R : Nat := 0x4
def PF_W : Nat := 0x2
def PF_X : Nat := 0x1

/-- Modelled from the spec: `PAGE_SIZE` comes from `page.h`, which is not among the
sources; the spec fixes the page granularity at 4096 bytes, matching the mask
`0xFFFFFFFFFFFFF000` that `load` applies. -/
def PAGE_SIZE : Nat := 4096

/-- The header record `elf_header_t` (the sixteen `e_ident` bytes are not read by the code). -/
structure elf_header_t where
  e_type : Nat
  e_machine : Nat
  e_version : Nat
  e_entry : Nat
  e_phoff : Nat
  e_shoff : Nat
  e_flags : Nat
  e_ehsize : Nat
  e_phentsize : Nat
  e_phnum : Nat
  e_shentsize : Nat
  e_shnum : Nat
  e_shstrndx : Nat
  deriving DecidableEq, Repr

/-- The program-header record `elf_program_t`. -/
structure elf_program_t where
  p_type : Nat
  p_flags : Nat
  p_offset : Nat
  p_vaddr : Nat
  p_paddr : Nat
  p_filesz : Nat
  p_memsz : Nat
  p_align : Nat
  deriving DecidableEq, Repr

/-- The boot module descriptor, of which `exec_module` reads `begin` and `end`. -/
structure stivale2_module where
  begin : Nat
  end_ : Nat

/-! ## Machine state and collaborators -/

/-- Byte store indexed by virtual address. -/
abbrev Mem := Nat → Nat

/-- Little-endian read of `width` bytes at address `a`. -/
def rd (m : Mem) : Nat → Nat → Nat
  | 0, _ => 0
  | width + 1, a => m a % 256 + 256 * rd m width (a + 1)

/-- The record `*(elf_header_t *)p` as the store holds it: the fields at their offsets
in the 64-byte structure. -/
def read_header (m : Mem) (p : Nat) : elf_header_t :=
  { e_type := rd m 2 (p + 16)
    e_machine := rd m 2 (p + 18)
    e_version := rd m 4 (p + 20)
    e_entry := rd m 8 (p + 24)
    e_phoff := rd m 8 (p + 32)
    e_shoff := rd m 8 (p + 40)
    e_flags := rd m 4 (p + 48)
    e_ehsize := rd m 2 (p + 52)
    e_phentsize := rd m 2 (p + 54)
    e_phnum := rd m 2 (p + 56)
    e_shentsize := rd m 2 (p + 58)
    e_shnum := rd m 2 (p + 60)
    e_shstrndx := rd m 2 (p + 62) }

/-- The record `*(elf_program_t *)q` as the store holds it: the fields at their offsets
in the 56-byte structure. -/
def read_program (m : Mem) (q : Nat) : elf_program_t :=
  { p_type := rd m 4 q
    p_flags := rd m 4 (q + 4)
    p_offset := rd m 8 (q + 8)
    p_vaddr := rd m 8 (q + 16)
    p_paddr := rd m 8 (q + 24)
    p_filesz := rd m 8 (q + 32)
    p_memsz := rd m 8 (q + 40)
    p_align := rd m 8 (q + 48) }

/-- The address of `program[i]`. -/
def entry_addr (program i : Nat) : Nat := program + 56 * i

/-- Calls made to the collaborators, and the copies into memory, in program order. -/
inductive Event where
  | vm_map (vaddr : Nat) (user writable executable : Bool)
  | vm_protect (vaddr : Nat) (readable writable executable : Bool)
  | memcpy (dest src n : Nat)
  | save_arg (n : Nat)
  | unmap_lower_half
  | copy_arg (dest n : Nat)
  | store (addr val : Nat)
  | usermode_entry (data_sel stack code_sel entry arg : Nat)
  deriving DecidableEq, Repr

/-- Lines written by `kprintf` and `debugf`. -/
inductive LogMsg where
  | vm_map_failed
  | vm_protect_failed
  | segment (p_type p_vaddr p_filesz p_memsz p_offset : Nat)
  deriving DecidableEq, Repr

/-- Machine state threaded through the code: the collaborators' own state `vm`
(page tables, CR3), the byte store, the trace of calls and the log. -/
structure State (σ : Type) where
  vm : σ
  mem : Mem
  trace : List Event
  log : List LogMsg

/-- The functions of `page.h` and the selectors of `gdt.h`, as parameters.  A request
may succeed or fail and changes the collaborator's state; `unmap_lower_half` also
decides what the byte store holds afterwards. -/
structure Collab (σ : Type) where
  read_cr3 : σ → Nat
  vm_map : Nat → Nat → Bool → Bool → Bool → σ → Bool × σ
  vm_protect : Nat → Nat → Bool → Bool → Bool → σ → Bool × σ
  unmap_lower_half : Nat → σ → Mem → σ × Mem
  USER_DATA_SELECTOR : Nat
  USER_CODE_SELECTOR : Nat

/-- Writing the `n` bytes `bytes 0 .. bytes (n - 1)` at `dest`. -/
def blit (m : Mem) (dest : Nat) (bytes : Nat → Nat) (n : Nat) : Mem :=
  fun a => if dest ≤ a ∧ a < dest + n then bytes (a - dest) else m a

/-- The library `memcpy(dest, src, n)` within the byte store (the source is read as it
was before the call). -/
def memcpy (m : Mem) (dest src n : Nat) : Mem :=
  blit m dest (fun k => m (src + k)) n

/-- The library `strlen(s)`: the distance from `s` to the first zero byte. -/
def strlen (m : Mem) : Nat → Nat → Option Nat
  | 0, _ => none
  | fuel + 1, s => if m s = 0 then some 0 else (strlen m fuel (s + 1)).map (· + 1)

/-- The loop `for (b = begin; b < bound; b += step) body(b)` on `uintptr_t`; the bound
is evaluated anew before every iteration. -/
def for_pages {σ : Type} (body : Nat → State σ → State σ) (bound : State σ → Nat)
    (step : Nat) : Nat → Nat → State σ → Option (State σ)
  | 0, _, _ => none
  | fuel + 1, b, st =>
    if b < bound st then for_pages body bound step fuel ((b + step) % 2 ^ 64) (body b st)
    else some st

/-- The addresses `b, b + 4096, b + 2 * 4096, ...` that are below `e`. -/
def pageSeq (b e : Nat) : List Nat :=
  List.range' b ((e - b + 4095) / 4096) 4096

/-- Running a loop body over a list of addresses, first to last. -/
def runOver {σ : Type} (body : Nat → State σ → State σ) (ps : List Nat) (st : State σ) :
    State σ :=
  ps.foldl (fun s b => body b s) st

/-! ## `load` -/

/-- Body of the first page loop of `load`: `vm_map(read_cr3(), begin, true, true, true)`,
logging a failure. -/
def map_body {σ : Type} (K : Collab σ) (b : Nat) (st : State σ) : State σ :=
  let r := K.vm_map (K.read_cr3 st.vm) b true true true st.vm
  { vm := r.2
    mem := st.mem
    trace := st.trace ++ [Event.vm_map b true true true]
    log := if r.1 then st.log else st.log ++ [LogMsg.vm_map_failed] }

/-- Body of the second page loop of `load`:
`vm_protect(read_cr3(), begin, readable, writable, executable)`, logging a failure. -/
def protect_body {σ : Type} (K : Collab σ) (readable writable executable : Bool)
    (b : Nat) (st : State σ) : State σ :=
  let r := K.vm_protect (K.read_cr3 st.vm) b readable writable executable st.vm
  { vm := r.2
    mem := st.mem
    trace := st.trace ++ [Event.vm_protect b readable writable executable]
    log := if r.1 then st.log else st.log ++ [LogMsg.vm_protect_failed] }

/-- The bound `dest + program[i].p_memsz` of both page loops, read from the store. -/
def page_bound {σ : Type} (dest q : Nat) (st : State σ) : Nat :=
  (dest + (read_program st.mem q).p_memsz) % 2 ^ 64

/-- The first page loop of `load` (lines 80-85) for the entry at `q` with destination
`dest`. -/
def map_loop {σ : Type} (K : Collab σ) (fuel dest q : Nat) (st : State σ) :
    Option (State σ) :=
  for_pages (map_body K) (page_bound dest q) PAGE_SIZE fuel (dest &&& 0xFFFFFFFFFFFFF000) st

/-- One iteration of the segment loop of `load` (lines 66-98) for `program[i]`. -/
def load_segment {σ : Type} (K : Collab σ) (fuel p program i : Nat) (st : State σ) :
    Option (State σ) :=
  let q := entry_addr program i
  if (read_program st.mem q).p_type ≠ PT_LOAD then some st
  else if (read_program st.mem q).p_memsz = 0 then some st
  else
    let src := (p + (read_program st.mem q).p_offset) % 2 ^ 64
    let dest := (read_program st.mem q).p_vaddr
    let executable := decide ((read_program st.mem q).p_flags &&& PF_X ≠ 0)
    let writable := decide ((read_program st.mem q).p_flags &&& PF_W ≠ 0)
    let readable := decide ((read_program st.mem q).p_flags &&& PF_R ≠ 0)
    match map_loop K fuel dest q st with
    | none => none
    | some st1 =>
      let n := (read_program st1.mem q).p_memsz
      let st2 : State σ :=
        { st1 with
          mem := memcpy st1.mem dest src n
          trace := st1.trace ++ [Event.memcpy dest src n] }
      match for_pages (protect_body K readable writable executable) (page_bound dest q)
          PAGE_SIZE fuel (dest &&& 0xFFFFFFFFFFFFF000) st2 with
      | none => none
      | some st3 =>
        some { st3 with
               log := st3.log ++
                 [LogMsg.segment (read_program st3.mem q).p_type (read_program st3.mem q).p_vaddr
                   (read_program st3.mem q).p_filesz (read_program st3.mem q).p_memsz
                   (read_program st3.mem q).p_offset] }

/-- The segment loop `for (size_t i = 0; i < header->e_phnum; i++)` of `load`;
the first argument is the fuel of this loop, `fuel` that of the page loops. -/
def load_loop {σ : Type} (K : Collab σ) (fuel p program : Nat) :
    Nat → Nat → State σ → Option (State σ)
  | 0, _, _ => none
  | n + 1, i, st =>
    if i < (read_header st.mem p).e_phnum then
      match load_segment K fuel p program i st with
      | none => none
      | some st1 => load_loop K fuel p program n (i + 1) st1
    else some st

/-- The function `load(p, size)`: `program = p + header->e_phoff` is taken once, the
segment loop is run, and `header->e_entry` is read and returned together with the
machine state reached. -/
def load {σ : Type} (K : Collab σ) (fuel p size : Nat) (st : State σ) :
    Option (Nat × State σ) :=
  let program := (p + (read_header st.mem p).e_phoff) % 2 ^ 64
  match load_loop K fuel p program fuel 0 st with
  | none => none
  | some st1 => some ((read_header st1.mem p).e_entry, st1)

/-! ## `exec_module` -/

/-- Body of the stack loop of `exec_module`, also used for the argument page:
`vm_map(read_cr3() & 0xFFFFFFFFFFFFF000, p, true, true, false)`, result ignored. -/
def user_map_body {σ : Type} (K : Collab σ) (p : Nat) (st : State σ) : State σ :=
  let r := K.vm_map (K.read_cr3 st.vm &&& 0xFFFFFFFFFFFFF000) p true true false st.vm
  { vm := r.2
    mem := st.mem
    trace := st.trace ++ [Event.vm_map p true true false]
    log := st.log }

/-- Lines 106-109 of `exec_module`: `if (argument != NULL) memcpy(arg, argument,
strlen(argument) + 1)`.  `arg` is the address of the local array `char arg[512]`.  A
copy of more than 512 bytes goes on into the bytes that follow the array in the store;
what such a write does to the rest of the stack frame is not modelled. -/
def save_argument {σ : Type} (fuel argument arg : Nat) (st : State σ) : Option (State σ) :=
  if argument ≠ 0 then
    match strlen st.mem fuel argument with
    | none => none
    | some n =>
      some { st with
             mem := memcpy st.mem arg argument (n + 1)
             trace := st.trace ++ [Event.save_arg (n + 1)] }
  else some st

/-- Line 112 of `exec_module`: `unmap_lower_half(read_cr3())`. -/
def unmap_step {σ : Type} (K : Collab σ) (st : State σ) : State σ :=
  let u := K.unmap_lower_half (K.read_cr3 st.vm) st.vm st.mem
  { vm := u.1, mem := u.2, trace := st.trace ++ [Event.unmap_lower_half], log := st.log }

/-- Lines 130-135 of `exec_module`: `if (argument != NULL) memcpy(strp, arg,
strlen(arg) + 1); else *strp = 0`. -/
def copy_argument {σ : Type} (fuel argument strp arg : Nat) (st : State σ) :
    Option (State σ) :=
  if argument ≠ 0 then
    match strlen st.mem fuel arg with
    | none => none
    | some n =>
      some { st with
             mem := memcpy st.mem strp arg (n + 1)
             trace := st.trace ++ [Event.copy_arg strp (n + 1)] }
  else
    some { st with
           mem := blit st.mem strp (fun _ => 0) 1
           trace := st.trace ++ [Event.store strp 0] }

/-- The function `exec_module(module, argument)`.  `argument` is the pointer (0 for
`NULL`), `arg` the address of the local array.  The result is the machine state when
`usermode_entry` is reached. -/
def exec_module {σ : Type} (K : Collab σ) (fuel : Nat) (module : stivale2_module)
    (argument arg : Nat) (st : State σ) : Option (State σ) :=
  match save_argument fuel argument arg st with
  | none => none
  | some st1 =>
    let st2 := unmap_step K st1
    match load K fuel module.begin ((module.end_ + 2 ^ 64 - module.begin) % 2 ^ 64) st2 with
    | none => none
    | some (entry, st3) =>
      let user_stack := 0x70000000000
      let user_stack_size := 8 * PAGE_SIZE
      match for_pages (user_map_body K) (fun _ => (user_stack + user_stack_size) % 2 ^ 64)
          0x1000 fuel user_stack st3 with
      | none => none
      | some st4 =>
        let copied_argument := 0x60000000000
        let st5 := user_map_body K copied_argument st4
        match copy_argument fuel argument copied_argument arg st5 with
        | none => none
        | some st6 =>
          some { st6 with
                 trace := st6.trace ++
                   [Event.usermode_entry (K.USER_DATA_SELECTOR ||| 0x3)
                     ((user_stack + user_stack_size - 8) % 2 ^ 64)
                     (K.USER_CODE_SELECTOR ||| 0x3) entry copied_argument] }

/-! ## Concrete inputs -/

/-- Writing the `width` low bytes of `v` at `a`, little-endian. -/
def poke (a width v : Nat) (m : Mem) : Mem :=
  fun x => if a ≤ x ∧ x < a + width then v / 256 ^ (x - a) % 256 else m x

/-- Storing a header record at `p`. -/
def put_header (p : Nat) (h : elf_header_t) (m : Mem) : Mem :=
  poke (p + 16) 2 h.e_type <| poke (p + 18) 2 h.e_machine <| poke (p + 20) 4 h.e_version <|
  poke (p + 24) 8 h.e_entry <| poke (p + 32) 8 h.e_phoff <| poke (p + 40) 8 h.e_shoff <|
  poke (p + 48) 4 h.e_flags <| poke (p + 52) 2 h.e_ehsize <| poke (p + 54) 2 h.e_phentsize <|
  poke (p + 56) 2 h.e_phnum <| poke (p + 58) 2 h.e_shentsize <| poke (p + 60) 2 h.e_shnum <|
  poke (p + 62) 2 h.e_shstrndx m

/-- Storing a program-header record at `q`. -/
def put_program (q : Nat) (e : elf_program_t) (m : Mem) : Mem :=
  poke q 4 e.p_type <| poke (q + 4) 4 e.p_flags <| poke (q + 8) 8 e.p_offset <|
  poke (q + 16) 8 e.p_vaddr <| poke (q + 24) 8 e.p_paddr <| poke (q + 32) 8 e.p_filesz <|
  poke (q + 40) 8 e.p_memsz <| poke (q + 48) 8 e.p_align m

/-- Storing a table of program headers from `q` on. -/
def put_table (q : Nat) : List elf_program_t → Mem → Mem
  | [], m => m
  | e :: l, m => put_program q e (put_table (q + 56) l m)

/-- A header with the given entry address and number of table entries, the table
following the header. -/
def headerOf (entry phnum : Nat) : elf_header_t :=
  { e_type := 2, e_machine := 62, e_version := 1, e_entry := entry, e_phoff := 64,
    e_shoff := 0, e_flags := 0, e_ehsize := 64, e_phentsize := 56, e_phnum := phnum,
    e_shentsize := 0, e_shnum := 0, e_shstrndx := 0 }

/-- The store `m` with an image at `p`: a header, then the table holding the entries
of `l`. -/
def imageAt (p entry : Nat) (l : List elf_program_t) (m : Mem) : Mem :=
  put_header p (headerOf entry l.length) (put_table (p + 64) l m)

/-- A collaborator whose every request succeeds and whose `unmap_lower_half` leaves the
byte store alone. -/
def idealCollab : Collab Unit where
  read_cr3 := fun _ => 0x1000
  vm_map := fun _ _ _ _ _ s => (true, s)
  vm_protect := fun _ _ _ _ _ s => (true, s)
  unmap_lower_half := fun _ s m => (s, m)
  USER_DATA_SELECTOR := 0x20
  USER_CODE_SELECTOR := 0x28

/-- A machine holding the bytes `m`, with nothing issued yet. -/
def boot (m : Mem) : State Unit :=
  { vm := (), mem := m, trace := [], log := [] }

/-- A table entry of kind `PT_NULL`. -/
def nullEntry : elf_program_t :=
  { p_type := PT_NULL, p_flags := 0, p_offset := 0, p_vaddr := 0, p_paddr := 0,
    p_filesz := 0, p_memsz := 0, p_align := 0 }

/-- A loadable segment that ends exactly at the top of the 64-bit address space. -/
def topSegment : elf_program_t :=
  { p_type := 1, p_flags := 6, p_offset := 0x1000, p_vaddr := 0xFFFFFFFFFFFFF000, p_paddr := 0,
    p_filesz := 0x1000, p_memsz := 0x1000, p_align := 0x1000 }

/-- A loadable segment of one byte in the last page of the 64-bit address space. -/
def edgeSegment : elf_program_t :=
  { p_type := 1, p_flags := 6, p_offset := 0x1000, p_vaddr := 0xFFFFFFFFFFFFF000, p_paddr := 0,
    p_filesz := 1, p_memsz := 1, p_align := 0x1000 }

/-- Segment A of the two-segment scenario: read and execute, 16 bytes at `0x1000`. -/
def segmentA : elf_program_t :=
  { p_type := 1, p_flags := 5, p_offset := 0x1000, p_vaddr := 0x1000, p_paddr := 0,
    p_filesz := 0x10, p_memsz := 0x10, p_align := 0x1000 }

/-- Segment B of the two-segment scenario: read and write, 8 bytes of file content and
`0x1000` bytes of memory at `0x2000`. -/
def segmentB : elf_program_t :=
  { p_type := 1, p_flags := 6, p_offset := 0x2000, p_vaddr := 0x2000, p_paddr := 0,
    p_filesz := 0x8, p_memsz := 0x1000, p_align := 0x1000 }

/-- The entries of the two-segment image, with a note entry and an empty loadable
entry in between. -/
def demoTable : List elf_program_t :=
  [segmentA,
   { nullEntry with p_type := 4, p_vaddr := 0x5000, p_memsz := 0x20 },
   { segmentB with p_vaddr := 0x7000, p_memsz := 0 },
   segmentB]

/-- A store holding the two-segment image at `0x200000` and zero elsewhere. -/
def demoMem : Mem := imageAt 0x200000 0x1000 demoTable (fun _ => 0)

/-- A store whose file, at `0x200000`, holds the image of segment B alone and is
filled with `0xAA` after the table; the store is zero outside the file. -/
def fileMem : Mem :=
  imageAt 0x200000 0x1000 [segmentB]
    (fun a => if 0x200000 ≤ a ∧ a < 0x203000 then 0xAA else 0)

/-- A store holding, at `0x200000`, an image whose only entry is `topSegment`. -/
def topMem : Mem := imageAt 0x200000 0x1000 [topSegment] (fun _ => 0)

/-- A store holding, at `0x200000`, an image whose only entry is `edgeSegment`. -/
def edgeMem : Mem := imageAt 0x200000 0x1000 [edgeSegment] (fun _ => 0)

/-- A loadable segment of eight bytes whose destination is the `e_entry` field of the
header of an image at `0x200000`. -/
def headerSegment : elf_program_t :=
  { p_type := 1, p_flags := 6, p_offset := 0x1000, p_vaddr := 0x200018, p_paddr := 0,
    p_filesz := 8, p_memsz := 8, p_align := 8 }

/-- A store holding, at `0x200000`, an image whose only entry is `headerSegment`, in a
file otherwise filled with `0xAA`. -/
def headerMem : Mem :=
  imageAt 0x200000 0x1000 [headerSegment]
    (fun a => if 0x200000 ≤ a ∧ a < 0x203000 then 0xAA else 0)

/-- A store holding, at `0x200000`, an image with the entries `edgeSegment` and
`segmentA`. -/
def edgeFirstMem : Mem := imageAt 0x200000 0x1000 [edgeSegment, segmentA] (fun _ => 0)

/-- A loadable segment of four bytes whose destination is the `p_type` field of the
second table entry of an image at `0x200000`. -/
def typeSegment : elf_program_t :=
  { p_type := 1, p_flags := 6, p_offset := 0x1000, p_vaddr := 0x200078, p_paddr := 0,
    p_filesz := 4, p_memsz := 4, p_align := 4 }

/-- A store holding, at `0x200000`, an image with the entries `typeSegment` and
`segmentA`, in a file otherwise zero. -/
def typeMem : Mem := imageAt 0x200000 0x1000 [typeSegment, segmentA] (fun _ => 0)

/-- A loadable, readable and executable segment whose range wraps around the top of
the 64-bit address space: it starts in the last page but one and ends at `2^64`. -/
def wrapSegment : elf_program_t :=
  { p_type := 1, p_flags := 5, p_offset := 0x1000, p_vaddr := 0xFFFFFFFFFFFFE800, p_paddr := 0,
    p_filesz := 0x1800, p_memsz := 0x1800, p_align := 0x1000 }

/-- A store holding, at `0x200000`, an image whose only entry is `wrapSegment`. -/
def wrapMem : Mem := imageAt 0x200000 0x1000 [wrapSegment] (fun _ => 0)

/-- A loadable segment of `0x1000` bytes whose destination starts at its own `p_memsz`
field, for an image at `0x200000`. -/
def sizeSegment : elf_program_t :=
  { p_type := 1, p_flags := 5, p_offset := 0x2000, p_vaddr := 0x200068, p_paddr := 0,
    p_filesz := 0x1000, p_memsz := 0x1000, p_align := 8 }

/-- A store holding, at `0x200000`, an image whose only entry is `sizeSegment`; the file
content of the segment starts with the 64-bit value 8 and is zero after it. -/
def sizeMem : Mem := imageAt 0x200000 0x1000 [sizeSegment] (poke 0x202000 8 8 (fun _ => 0))

/-- The module of the launches below: three pages in the higher half. -/
def demoModule : stivale2_module :=
  { begin := 0xffff800000200000, end_ := 0xffff800000203000 }

/-- A collaborator whose every request succeeds and whose `unmap_lower_half` makes the
lower half unreadable: every byte below `0x800000000000` reads as zero afterwards. -/
def wipingCollab : Collab Unit where
  read_cr3 := fun _ => 0x1000
  vm_map := fun _ _ _ _ _ s => (true, s)
  vm_protect := fun _ _ _ _ _ s => (true, s)
  unmap_lower_half := fun _ s m => (s, fun a => if a < 0x800000000000 then 0 else m a)
  USER_DATA_SELECTOR := 0x20
  USER_CODE_SELECTOR := 0x28

/-- The bytes of the text `hello`. -/
def helloBytes (k : Nat) : Nat := [104, 101, 108, 108, 111].getD k 0

/-- The bytes of the text `WORLD`. -/
def worldBytes (k : Nat) : Nat := [87, 79, 82, 76, 68].getD k 0

/-- A store that is zero but for `0xCC` in the kilobyte from `0xffff800000300000` on,
where the launches below have the local array `arg`. -/
def stackMem : Mem :=
  fun a => if 0xffff800000300000 ≤ a ∧ a < 0xffff800000300400 then 0xCC else 0

/-- A store holding the two-segment image at the module address and the text `hello`,
zero-terminated, at `0x5000`. -/
def launchMem : Mem :=
  imageAt 0xffff800000200000 0x1000 demoTable (blit stackMem 0x5000 helloBytes 5)

/-- A store holding an image without table entries at the module address and 512 bytes
`A` at `0x5000`, followed by zero: a string of 512 characters. -/
def longMem : Mem :=
  imageAt 0xffff800000200000 0x1000 [] (blit stackMem 0x5000 (fun _ => 0x41) 512)

/-- A store holding, at the module address, an image whose only entry is `edgeSegment`,
and the text `hello`, zero-terminated, at `0x5000`. -/
def edgeLaunchMem : Mem :=
  imageAt 0xffff800000200000 0x1000 [edgeSegment] (blit stackMem 0x5000 helloBytes 5)

/-- A loadable segment of six bytes whose destination is the address
`0xffff800000300000`. -/
def stackSegment : elf_program_t :=
  { p_type := 1, p_flags := 6, p_offset := 0x1000, p_vaddr := 0xffff800000300000, p_paddr := 0,
    p_filesz := 6, p_memsz := 6, p_align := 8 }

/-- A store holding, at the module address, an image whose only entry is `stackSegment`,
with the file content `WORLD`, zero-terminated, and the text `hello`, zero-terminated, at
`0x5000`. -/
def clobberMem : Mem :=
  imageAt 0xffff800000200000 0x1000 [stackSegment]
    (blit (blit stackMem 0x5000 helloBytes 5) 0xffff800000201000 worldBytes 5)

/-- A store holding, at the module address, an image with the entries `edgeSegment` and
`segmentA`. -/
def edgeFirstLaunchMem : Mem :=
  imageAt 0xffff800000200000 0x1000 [edgeSegment, segmentA] stackMem

/-- A loadable segment that starts in the last page but one of the 64-bit address space
and ends in the last page. -/
def lateSegment : elf_program_t :=
  { p_type := 1, p_flags := 6, p_offset := 0x1000, p_vaddr := 0xFFFFFFFFFFFFE000, p_paddr := 0,
    p_filesz := 0x1800, p_memsz := 0x1800, p_align := 0x1000 }

/-- A store holding, at the module address, an image whose only entry is `lateSegment`. -/
def lateLaunchMem : Mem :=
  imageAt 0xffff800000200000 0x1000 [lateSegment] stackMem


/-! ## Vocabulary of the statements -/

/-- The spec's `floor_to_page`: the address rounded down to a multiple of 4096. -/
def floor_to_page (x : Nat) : Nat := x - x % 4096

/-- The page addresses visited by a page loop of `load` for an entry with the fields
of `ph`. -/
def segPages (ph : elf_program_t) : List Nat :=
  pageSeq (ph.p_vaddr &&& 0xFFFFFFFFFFFFF000) ((ph.p_vaddr + ph.p_memsz) % 2 ^ 64)

/-- The entry is one that `load` acts on: loadable and of non-zero size. -/
def acted (ph : elf_program_t) : Prop := ph.p_type = PT_LOAD ∧ ph.p_memsz ≠ 0

instance (ph : elf_program_t) : Decidable (acted ph) := by
  unfold acted
  infer_instance

/-- The calls and the copy that an entry with the fields of `ph` gives rise to: nothing
for an entry that is skipped, else a `vm_map` per page, the copy, a `vm_protect` per page. -/
def segEvents (p : Nat) (ph : elf_program_t) : List Event :=
  if acted ph then
    (segPages ph).map (fun b => Event.vm_map b true true true)
      ++ [Event.memcpy ph.p_vaddr ((p + ph.p_offset) % 2 ^ 64) ph.p_memsz]
      ++ (segPages ph).map (fun b => Event.vm_protect b
            (decide (ph.p_flags &&& PF_R ≠ 0)) (decide (ph.p_flags &&& PF_W ≠ 0))
            (decide (ph.p_flags &&& PF_X ≠ 0)))
  else []

/-- The value of `program` in `load`: `p + header->e_phoff`, for the store `m`. -/
def program_of (m : Mem) (p : Nat) : Nat := (p + (read_header m p).e_phoff) % 2 ^ 64

/-- The `i`-th entry of the table of the image at `p`, as the store `m` holds it. -/
def phdr (m : Mem) (p i : Nat) : elf_program_t :=
  read_program m (entry_addr (program_of m p) i)

/-- The destination `[p_vaddr, p_vaddr + p_memsz)` of `ph` lies outside `[lo, hi)`. -/
def apartFrom (ph : elf_program_t) (lo hi : Nat) : Prop :=
  ph.p_vaddr + ph.p_memsz ≤ lo ∨ hi ≤ ph.p_vaddr

instance (ph : elf_program_t) (lo hi : Nat) : Decidable (apartFrom ph lo hi) := by
  unfold apartFrom
  infer_instance

/-- Every entry of the image at `p` that `load` acts on ends at or below the last page
boundary, `p_vaddr + p_memsz ≤ 2^64 - 4096`, and its destination overlaps neither the
64 bytes of the header nor the bytes of the table. -/
def wellPlaced (m : Mem) (p : Nat) : Prop :=
  ∀ i, i < (read_header m p).e_phnum → acted (phdr m p i) →
    (phdr m p i).p_vaddr + (phdr m p i).p_memsz ≤ 2 ^ 64 - 4096
      ∧ apartFrom (phdr m p i) p (p + 64)
      ∧ apartFrom (phdr m p i) (program_of m p)
          (program_of m p + 56 * (read_header m p).e_phnum)

instance (m : Mem) (p : Nat) : Decidable (wellPlaced m p) := by
  unfold wellPlaced
  infer_instance

/-- The store `m` holds the same header and table for the image at `p` as `m0` does. -/
def sameImage (m0 : Mem) (p : Nat) (m : Mem) : Prop :=
  ∀ a, (p ≤ a ∧ a < p + 64)
      ∨ (program_of m0 p ≤ a ∧ a < program_of m0 p + 56 * (read_header m0 p).e_phnum) →
    m a = m0 a

/-- The address `a` lies in the destination of no entry that `load` acts on. -/
def outsideSegments (m : Mem) (p a : Nat) : Prop :=
  ∀ j, j < (read_header m p).e_phnum → acted (phdr m p j) →
    ¬ ((phdr m p j).p_vaddr ≤ a ∧ a < (phdr m p j).p_vaddr + (phdr m p j).p_memsz)

instance (m : Mem) (p a : Nat) : Decidable (outsideSegments m p a) := by
  unfold outsideSegments
  infer_instance

/-- The page addresses from `floor_to_page(p_vaddr)` on that are below
`p_vaddr + p_memsz`: the pages of the range of `ph`. -/
def rangePages (ph : elf_program_t) : List Nat :=
  pageSeq (floor_to_page ph.p_vaddr) (ph.p_vaddr + ph.p_memsz)

/-- The ranges of `a` and `b` have no page in common. -/
def pagesApart (a b : elf_program_t) : Prop :=
  ∀ x, x ∈ rangePages a → x ∉ rangePages b

instance (a b : elf_program_t) : Decidable (pagesApart a b) := by
  unfold pagesApart
  infer_instance

/-- The calls and copies of a run of `load` over the table that the store `m` holds
for the image at `p`. -/
def tableEvents (m : Mem) (p : Nat) : List Event :=
  (List.range (read_header m p).e_phnum).flatMap (fun i => segEvents p (phdr m p i))

/-- The bytes at `a` in `m` form a C string of length `n`: `n` non-zero bytes, then 0. -/
def isCString (m : Nat → Nat) (a n : Nat) : Prop :=
  (∀ k, k < n → m (a + k) ≠ 0) ∧ m (a + n) = 0

instance (m : Nat → Nat) (a n : Nat) : Decidable (isCString m a n) := by
  unfold isCString
  infer_instance

/-- The machine of `exec_module` at the call of `load`: the argument, if there is one,
of length `n`, has been saved into the local array, and the lower half is unmapped. -/
def beforeLoad {σ : Type} (K : Collab σ) (argument arg n : Nat) (st : State σ) : State σ :=
  unmap_step K
    (if argument ≠ 0 then
      { st with
        mem := memcpy st.mem arg argument (n + 1)
        trace := st.trace ++ [Event.save_arg (n + 1)] }
    else st)

/-- The eight `vm_map` requests of the stack loop of `exec_module`. -/
def stackMaps : List Event :=
  (List.range 8).map (fun k => Event.vm_map (0x70000000000 + k * 4096) true true false)

/-- The copy into the argument page: the saved string, or a single zero byte. -/
def argCopy (argument n : Nat) : Event :=
  if argument ≠ 0 then Event.copy_arg 0x60000000000 (n + 1) else Event.store 0x60000000000 0

/-- Requests for a mapping or a permission, and copies into user memory. -/
def Event.isUserOp : Event → Bool
  | Event.vm_map _ _ _ _ => true
  | Event.vm_protect _ _ _ _ => true
  | Event.memcpy _ _ _ => true
  | Event.copy_arg _ _ => true
  | Event.store _ _ => true
  | _ => false

/-- From `st` to `st1` only mappings, permission requests and copies into user memory
were issued. -/
def onlyUserOps {σ : Type} (st st1 : State σ) : Prop :=
  ∃ evs, st1.trace = st.trace ++ evs ∧ ∀ ev, ev ∈ evs → ev.isUserOp = true

/-! ## `pic.c` -/

/-- Port reads and writes, in program order. -/
inductive PortEvent where
  | inb (port : Nat)
  | outb (port val : Nat)
  deriving DecidableEq, Repr

/-- The I/O ports of `port.h` as a register file: `inb` returns what the port holds,
`outb` replaces it. -/
structure Ports where
  reg : Nat → Nat
  trace : List PortEvent

/-- The port read `inb(port)`: the value held by the port, and the read recorded. -/
def inb (port : Nat) (io : Ports) : Nat × Ports :=
  (io.reg port, { io with trace := io.trace ++ [PortEvent.inb port] })

/-- The port write `outb(port, val)`. -/
def outb (port val : Nat) (io : Ports) : Ports :=
  { reg := fun q => if q = port then val else io.reg q
    trace := io.trace ++ [PortEvent.outb port val] }

/-- The function `pic_mask_irq(num)`; `PIC1_DATA` and `PIC2_DATA` are the constants of
`pic.h`.  `mask` is a `uint8_t`, hence the `% 256`. -/
def pic_mask_irq (PIC1_DATA PIC2_DATA num : Nat) (io : Ports) : Ports :=
  if num < 8 then
    let r := inb PIC1_DATA io
    let mask := r.1 % 256
    let mask := (mask ||| (1 <<< num)) % 256
    outb PIC1_DATA mask r.2
  else if num < 16 then
    let r := inb PIC2_DATA io
    let mask := r.1 % 256
    let mask := (mask ||| (1 <<< (num - 8))) % 256
    outb PIC2_DATA mask r.2
  else io

/-- The function `pic_unmask_irq(num)`.  `~(1 << n)` is the complement of a 32-bit
`int`, written `2 ^ 32 - 1 - 1 <<< n`. -/
def pic_unmask_irq (PIC1_DATA PIC2_DATA num : Nat) (io : Ports) : Ports :=
  if num < 8 then
    let r := inb PIC1_DATA io
    let mask := r.1 % 256
    let mask := (mask &&& (2 ^ 32 - 1 - (1 <<< num))) % 256
    outb PIC1_DATA mask r.2
  else if num < 16 then
    let r := inb PIC2_DATA io
    let mask := r.1 % 256
    let mask := (mask &&& (2 ^ 32 - 1 - (1 <<< (num - 8)))) % 256
    outb PIC2_DATA mask r.2
  else io

/-- Ports with the mask `0xF0` in the data port `0xA1` and `0xFF` everywhere else. -/
def demoPorts : Ports :=
  { reg := fun q => if q = 0xA1 then 0xF0 else 0xFF, trace := [] }

/-! ## Facts about reads of the store -/

theorem rd_congr (m1 m2 : Mem) :
    ∀ (w a : Nat), (∀ k, k < w → m1 (a + k) = m2 (a + k)) → rd m1 w a = rd m2 w a := by
  intro w
  induction w with
  | zero => intro a _; rfl
  | succ w ih =>
    intro a h
    have h0 : m1 a = m2 a := by simpa using h 0 (by omega)
    have hr : rd m1 w (a + 1) = rd m2 w (a + 1) := by
      apply ih
      intro k hk
      have := h (k + 1) (by omega)
      rwa [show a + 1 + k = a + (k + 1) by omega]
    simp only [rd, h0, hr]

theorem rd_lt (m : Mem) : ∀ (w a : Nat), rd m w a < 256 ^ w := by
  intro w
  induction w with
  | zero => intro a; simp [rd]
  | succ w ih =>
    intro a
    have h1 := ih (a + 1)
    have h2 : m a % 256 < 256 := Nat.mod_lt _ (by norm_num)
    simp only [rd, pow_succ]
    nlinarith

theorem read_program_congr (m1 m2 : Mem) (q : Nat)
    (h : ∀ k, k < 56 → m1 (q + k) = m2 (q + k)) : read_program m1 q = read_program m2 q := by
  have hf : ∀ (w off : Nat), off + w ≤ 56 → rd m1 w (q + off) = rd m2 w (q + off) := by
    intro w off hle
    apply rd_congr
    intro k hk
    rw [Nat.add_assoc]
    exact h _ (by omega)
  have h0 := hf 4 0 (by omega)
  simp only [Nat.add_zero] at h0
  simp only [read_program, h0, hf 4 4 (by omega), hf 8 8 (by omega), hf 8 16 (by omega),
    hf 8 24 (by omega), hf 8 32 (by omega), hf 8 40 (by omega), hf 8 48 (by omega)]

theorem read_header_congr (m1 m2 : Mem) (p : Nat)
    (h : ∀ k, k < 64 → m1 (p + k) = m2 (p + k)) : read_header m1 p = read_header m2 p := by
  have hf : ∀ (w off : Nat), off + w ≤ 64 → rd m1 w (p + off) = rd m2 w (p + off) := by
    intro w off hle
    apply rd_congr
    intro k hk
    rw [Nat.add_assoc]
    exact h _ (by omega)
  simp only [read_header, hf 2 16 (by omega), hf 2 18 (by omega), hf 4 20 (by omega),
    hf 8 24 (by omega), hf 8 32 (by omega), hf 8 40 (by omega), hf 4 48 (by omega),
    hf 2 52 (by omega), hf 2 54 (by omega), hf 2 56 (by omega), hf 2 58 (by omega),
    hf 2 60 (by omega), hf 2 62 (by omega)]

/-! ## Facts about the page loop -/

theorem pageSeq_of_le {b e : Nat} (h : e ≤ b) : pageSeq b e = [] := by
  unfold pageSeq
  have : (e - b + 4095) / 4096 = 0 := by omega
  rw [this]; rfl

theorem pageSeq_of_lt {b e : Nat} (h : b < e) :
    pageSeq b e = b :: pageSeq (b + 4096) e := by
  unfold pageSeq
  have : (e - b + 4095) / 4096 = (e - (b + 4096) + 4095) / 4096 + 1 := by omega
  rw [this, List.range'_succ]

theorem mem_pageSeq {b e x : Nat} :
    x ∈ pageSeq b e ↔ ∃ k, x = b + 4096 * k ∧ x < e := by
  unfold pageSeq
  rw [List.mem_range']
  constructor
  · rintro ⟨i, hi, rfl⟩
    exact ⟨i, rfl, by omega⟩
  · rintro ⟨k, rfl, hk⟩
    exact ⟨k, by omega, rfl⟩

theorem pageSeq_nodup (b e : Nat) : (pageSeq b e).Nodup :=
  List.nodup_range' b _ 4096 (by norm_num)

/-- The loop never ends when its bound stays above the last page boundary of the
64-bit address space: every page-aligned `b` is below the bound, and `b += 4096` wraps. -/
theorem for_pages_diverges {σ : Type} (body : Nat → State σ → State σ)
    (bound : State σ → Nat) (hb : ∀ b s, bound (body b s) = bound s) :
    ∀ (fuel b : Nat) (st : State σ), 2 ^ 64 - 4096 < bound st → b % 4096 = 0 → b < 2 ^ 64 →
      for_pages body bound 4096 fuel b st = none := by
  intro fuel
  induction fuel with
  | zero => intro b st _ _ _; rfl
  | succ n ih =>
    intro b st he hal hlt
    have hbe : b < bound st := by omega
    simp only [for_pages, hbe, if_true]
    exact ih _ _ (by rw [hb]; exact he) (by omega) (by omega)

/-- With a bound at or below the last page boundary and more fuel than pages, the loop
ends, having run its body over `pageSeq b bound`. -/
theorem for_pages_ends {σ : Type} (body : Nat → State σ → State σ)
    (bound : State σ → Nat) (hb : ∀ b s, bound (body b s) = bound s) :
    ∀ (fuel b : Nat) (st : State σ), bound st ≤ 2 ^ 64 - 4096 →
      (bound st - b + 4095) / 4096 < fuel →
      for_pages body bound 4096 fuel b st = some (runOver body (pageSeq b (bound st)) st) := by
  intro fuel
  induction fuel with
  | zero => intro b st _ h; omega
  | succ n ih =>
    intro b st he h
    by_cases hbe : b < bound st
    · simp only [for_pages, hbe, if_true]
      have hw : (b + 4096) % 2 ^ 64 = b + 4096 := by omega
      rw [hw, pageSeq_of_lt hbe]
      have := ih (b + 4096) (body b st) (by rw [hb]; exact he) (by rw [hb]; omega)
      rw [this, hb]
      rfl
    · simp only [for_pages, hbe, if_false]
      rw [pageSeq_of_le (by omega)]
      rfl

theorem land_page (x : Nat) : x &&& 0xFFFFFFFFFFFFF000 = 4096 * (x % 2 ^ 64 / 4096) := by
  have hm : (0xFFFFFFFFFFFFF000 : Nat) = 2 ^ 12 * (2 ^ 52 - 1) := by norm_num
  have h4 : (4096 : Nat) = 2 ^ 12 := by norm_num
  rw [hm, h4]
  apply Nat.eq_of_testBit_eq
  intro i
  rw [Nat.testBit_and, Nat.testBit_mul_pow_two, Nat.testBit_mul_pow_two,
    Nat.testBit_two_pow_sub_one, ← Nat.shiftRight_eq_div_pow, Nat.testBit_shiftRight,
    Nat.testBit_mod_two_pow]
  by_cases h1 : 12 ≤ i
  · have h5 : 12 + (i - 12) = i := by omega
    by_cases h2 : i < 64
    · have h3 : i - 12 < 52 := by omega
      simp [h1, h2, h3, h5]
    · have h3 : ¬ (i - 12 < 52) := by omega
      simp [h1, h2, h3, h5]
  · simp [h1]

theorem land_page_aligned (x : Nat) :
    (x &&& 0xFFFFFFFFFFFFF000) % 4096 = 0 ∧ x &&& 0xFFFFFFFFFFFFF000 < 2 ^ 64 := by
  rw [land_page]
  have : x % 2 ^ 64 < 2 ^ 64 := Nat.mod_lt _ (by norm_num)
  omega

theorem land_page_of_lt {x : Nat} (h : x < 2 ^ 64) :
    x &&& 0xFFFFFFFFFFFFF000 = x - x % 4096 := by
  rw [land_page, Nat.mod_eq_of_lt h]
  omega

/-! ## Traces of the loop bodies -/

theorem runOver_map {σ : Type} (K : Collab σ) (ps : List Nat) :
    ∀ st : State σ, (runOver (map_body K) ps st).trace =
        st.trace ++ ps.map (fun b => Event.vm_map b true true true)
      ∧ (runOver (map_body K) ps st).mem = st.mem := by
  induction ps with
  | nil => intro st; simp [runOver]
  | cons a t ih =>
    intro st
    have h := ih (map_body K a st)
    simp only [runOver, List.foldl_cons] at h ⊢
    rw [h.1, h.2]
    simp [map_body]

theorem runOver_protect {σ : Type} (K : Collab σ) (r w x : Bool) (ps : List Nat) :
    ∀ st : State σ, (runOver (protect_body K r w x) ps st).trace =
        st.trace ++ ps.map (fun b => Event.vm_protect b r w x)
      ∧ (runOver (protect_body K r w x) ps st).mem = st.mem := by
  induction ps with
  | nil => intro st; simp [runOver]
  | cons a t ih =>
    intro st
    have h := ih (protect_body K r w x a st)
    simp only [runOver, List.foldl_cons] at h ⊢
    rw [h.1, h.2]
    simp [protect_body]

/-! ## One iteration of the segment loop -/

theorem segEvents_of_acted (p : Nat) (ph : elf_program_t) (hl : acted ph) :
    segEvents p ph =
      (segPages ph).map (fun b => Event.vm_map b true true true)
        ++ [Event.memcpy ph.p_vaddr ((p + ph.p_offset) % 2 ^ 64) ph.p_memsz]
        ++ (segPages ph).map (fun b => Event.vm_protect b
              (decide (ph.p_flags &&& PF_R ≠ 0)) (decide (ph.p_flags &&& PF_W ≠ 0))
              (decide (ph.p_flags &&& PF_X ≠ 0))) := by
  unfold segEvents
  rw [if_pos hl]

theorem segEvents_of_skipped (p : Nat) (ph : elf_program_t) (hl : ¬ acted ph) :
    segEvents p ph = [] := by
  unfold segEvents
  rw [if_neg hl]

/-- An entry that is not loadable, or has no size, leaves the machine as it is. -/
theorem load_segment_skip {σ : Type} (K : Collab σ) (fuel p program i : Nat)
    (st : State σ) (h : ¬ acted (read_program st.mem (entry_addr program i))) :
    load_segment K fuel p program i st = some st := by
  unfold load_segment
  by_cases ht : (read_program st.mem (entry_addr program i)).p_type = PT_LOAD
  · have hm : (read_program st.mem (entry_addr program i)).p_memsz = 0 := by
      by_contra hc
      exact h ⟨ht, hc⟩
    simp [ht, hm]
  · simp [ht]

theorem page_bound_map {σ : Type} (K : Collab σ) (dest q : Nat) :
    ∀ b (s : State σ), page_bound dest q (map_body K b s) = page_bound dest q s :=
  fun _ _ => rfl

theorem page_bound_protect {σ : Type} (K : Collab σ) (r w x : Bool) (dest q : Nat) :
    ∀ b (s : State σ), page_bound dest q (protect_body K r w x b s) = page_bound dest q s :=
  fun _ _ => rfl

/-- The first page loop of an acted-on entry whose bound lies above the last page
boundary never ends, and with it the iteration. -/
theorem load_segment_diverges {σ : Type} (K : Collab σ) (fuel p program i : Nat)
    (st : State σ) (e : elf_program_t)
    (he : read_program st.mem (entry_addr program i) = e) (ha : acted e)
    (hb : 2 ^ 64 - 4096 < (e.p_vaddr + e.p_memsz) % 2 ^ 64) :
    load_segment K fuel p program i st = none := by
  have hd : map_loop K fuel e.p_vaddr (entry_addr program i) st = none := by
    unfold map_loop
    exact for_pages_diverges _ _ (page_bound_map K _ _) fuel _ st
      (by simp only [page_bound, he]; exact hb)
      (land_page_aligned _).1 (land_page_aligned _).2
  unfold load_segment
  simp only [he, ha.1, ha.2, ne_eq, not_true_eq_false, if_false, hd]

theorem pageSeq_count_le {b e : Nat} (he : e ≤ 2 ^ 64 - 4096) :
    (e - b + 4095) / 4096 ≤ 2 ^ 52 := by
  omega

/-- The first page loop of an acted-on entry that ends at or below the last page
boundary: it ends, having requested the pages of `segPages`, and leaves the store alone. -/
theorem map_loop_runs {σ : Type} (K : Collab σ) (fuel q : Nat) (st : State σ)
    (e : elf_program_t) (he : read_program st.mem q = e)
    (hsum : e.p_vaddr + e.p_memsz ≤ 2 ^ 64 - 4096)
    (hfuel : ((e.p_vaddr + e.p_memsz) - (e.p_vaddr &&& 0xFFFFFFFFFFFFF000) + 4095) / 4096
      < fuel) :
    ∃ st1, map_loop K fuel e.p_vaddr q st = some st1
      ∧ st1.trace = st.trace ++ (segPages e).map (fun b => Event.vm_map b true true true)
      ∧ st1.mem = st.mem := by
  have hmod : (e.p_vaddr + e.p_memsz) % 2 ^ 64 = e.p_vaddr + e.p_memsz :=
    Nat.mod_eq_of_lt (by omega)
  have hbound : page_bound e.p_vaddr q st = e.p_vaddr + e.p_memsz := by
    simp only [page_bound, he, hmod]
  have h1 := for_pages_ends (map_body K) (page_bound e.p_vaddr q) (page_bound_map K _ _) fuel
    (e.p_vaddr &&& 0xFFFFFFFFFFFFF000) st (by rw [hbound]; exact hsum)
    (by rw [hbound]; exact hfuel)
  refine ⟨_, h1, ?_, ?_⟩
  · rw [(runOver_map K _ _).1, hbound, segPages, hmod]
  · exact (runOver_map K _ _).2

/-- One iteration of the segment loop for an acted-on entry that ends at or below the
last page boundary and whose destination does not overlap the entry itself: it ends,
its calls are those of `segEvents`, and the store is changed by the copy alone. -/
theorem load_segment_runs {σ : Type} (K : Collab σ) (fuel p program i : Nat)
    (st : State σ) (e : elf_program_t)
    (he : read_program st.mem (entry_addr program i) = e) (ha : acted e)
    (hsum : e.p_vaddr + e.p_memsz ≤ 2 ^ 64 - 4096)
    (hself : apartFrom e (entry_addr program i) (entry_addr program i + 56))
    (hfuel : ((e.p_vaddr + e.p_memsz) - (e.p_vaddr &&& 0xFFFFFFFFFFFFF000) + 4095) / 4096
      < fuel) :
    ∃ st3, load_segment K fuel p program i st = some st3
      ∧ st3.trace = st.trace ++ segEvents p e
      ∧ st3.mem = memcpy st.mem e.p_vaddr ((p + e.p_offset) % 2 ^ 64) e.p_memsz := by
  obtain ⟨st1, h1, ht1, hm1⟩ := map_loop_runs K fuel (entry_addr program i) st e he hsum hfuel
  have he1 : read_program st1.mem (entry_addr program i) = e := by rw [hm1]; exact he
  have hmod : (e.p_vaddr + e.p_memsz) % 2 ^ 64 = e.p_vaddr + e.p_memsz :=
    Nat.mod_eq_of_lt (by omega)
  -- the copy leaves the entry as it is
  have he2 : read_program (memcpy st1.mem e.p_vaddr ((p + e.p_offset) % 2 ^ 64) e.p_memsz)
      (entry_addr program i) = e := by
    refine Eq.trans (read_program_congr _ _ _ ?_) he1
    intro k hk
    have hout : ¬ (e.p_vaddr ≤ entry_addr program i + k
        ∧ entry_addr program i + k < e.p_vaddr + e.p_memsz) := by
      rcases hself with h | h <;> omega
    simp only [memcpy, blit, hout, if_false]
  have h2 : ∀ r w x : Bool, for_pages (protect_body K r w x)
      (page_bound e.p_vaddr (entry_addr program i)) 4096 fuel
      (e.p_vaddr &&& 0xFFFFFFFFFFFFF000)
      { st1 with
        mem := memcpy st1.mem e.p_vaddr ((p + e.p_offset) % 2 ^ 64) e.p_memsz
        trace := st1.trace ++ [Event.memcpy e.p_vaddr ((p + e.p_offset) % 2 ^ 64) e.p_memsz] }
      = some (runOver (protect_body K r w x) (segPages e)
          { st1 with
            mem := memcpy st1.mem e.p_vaddr ((p + e.p_offset) % 2 ^ 64) e.p_memsz
            trace := st1.trace
              ++ [Event.memcpy e.p_vaddr ((p + e.p_offset) % 2 ^ 64) e.p_memsz] }) := by
    intro r w x
    have := for_pages_ends (protect_body K r w x)
      (page_bound e.p_vaddr (entry_addr program i)) (page_bound_protect K _ _ _ _ _) fuel
      (e.p_vaddr &&& 0xFFFFFFFFFFFFF000)
      { st1 with
        mem := memcpy st1.mem e.p_vaddr ((p + e.p_offset) % 2 ^ 64) e.p_memsz
        trace := st1.trace ++ [Event.memcpy e.p_vaddr ((p + e.p_offset) % 2 ^ 64) e.p_memsz] }
      (by simp only [page_bound, he2, hmod]; exact hsum)
      (by simp only [page_bound, he2, hmod]; exact hfuel)
    rw [this]
    simp only [page_bound, he2, hmod, segPages]
  unfold load_segment
  simp only [he, ha.1, ha.2, ne_eq, not_true_eq_false, if_false, h1, he1, h2, PAGE_SIZE]
  refine ⟨_, rfl, ?_, ?_⟩
  · simp only [(runOver_protect K _ _ _ _ _).1, ht1, segEvents_of_acted p e ha,
      List.append_assoc, ne_eq]
  · simp only [(runOver_protect K _ _ _ _ _).2, hm1]

/-! ## The segment loop -/

theorem sameImage_header (m0 : Mem) (p : Nat) (m : Mem) (h : sameImage m0 p m) :
    read_header m p = read_header m0 p :=
  read_header_congr _ _ _ (fun k hk => h _ (Or.inl ⟨by omega, by omega⟩))

theorem sameImage_entry (m0 : Mem) (p : Nat) (m : Mem) (h : sameImage m0 p m) (i : Nat)
    (hi : i < (read_header m0 p).e_phnum) :
    read_program m (entry_addr (program_of m0 p) i) = phdr m0 p i := by
  unfold phdr
  apply read_program_congr
  intro k hk
  apply h
  right
  unfold entry_addr
  constructor
  · omega
  · have : 56 * (i + 1) ≤ 56 * (read_header m0 p).e_phnum := Nat.mul_le_mul_left 56 hi
    omega

theorem e_phnum_lt (m : Mem) (p : Nat) : (read_header m p).e_phnum < 65536 := by
  have := rd_lt m 2 (p + 56)
  simpa [read_header] using this

/-- The segment loop from entry `i` on, for a well-placed image: it ends, its calls are
those of the entries `i, i + 1, ...` in table order, the header and the table are as
before, and so is every byte outside the destinations of the entries acted on. -/
theorem load_loop_runs {σ : Type} (K : Collab σ) (fuel p : Nat) (m0 : Mem)
    (hw : wellPlaced m0 p) (hfuel : 2 ^ 52 < fuel) :
    ∀ (k i : Nat) (st : State σ), sameImage m0 p st.mem →
      (read_header m0 p).e_phnum - i < k →
      ∃ st1, load_loop K fuel p (program_of m0 p) k i st = some st1
        ∧ st1.trace = st.trace ++
            (List.range' i ((read_header m0 p).e_phnum - i)).flatMap
              (fun j => segEvents p (phdr m0 p j))
        ∧ sameImage m0 p st1.mem
        ∧ ∀ a, outsideSegments m0 p a → st1.mem a = st.mem a := by
  intro k
  induction k with
  | zero => intro i st _ h; omega
  | succ k ih =>
    intro i st hs hk
    have hh := sameImage_header m0 p st.mem hs
    by_cases hi : i < (read_header m0 p).e_phnum
    · have he := sameImage_entry m0 p st.mem hs i hi
      have hc : (read_header m0 p).e_phnum - i = ((read_header m0 p).e_phnum - (i + 1)) + 1 := by
        omega
      by_cases ha : acted (phdr m0 p i)
      · obtain ⟨hsum, hhead, htab⟩ := hw i hi ha
        have hself : apartFrom (phdr m0 p i) (entry_addr (program_of m0 p) i)
            (entry_addr (program_of m0 p) i + 56) := by
          have : 56 * (i + 1) ≤ 56 * (read_header m0 p).e_phnum := Nat.mul_le_mul_left 56 hi
          unfold entry_addr
          rcases htab with h | h
          · left; omega
          · right; omega
        obtain ⟨st3, h3, ht3, hm3⟩ := load_segment_runs K fuel p (program_of m0 p) i st
          (phdr m0 p i) he ha hsum hself
          (lt_of_le_of_lt (pageSeq_count_le hsum) hfuel)
        have hs3 : sameImage m0 p st3.mem := by
          intro a hin
          have hout : ¬ ((phdr m0 p i).p_vaddr ≤ a
              ∧ a < (phdr m0 p i).p_vaddr + (phdr m0 p i).p_memsz) := by
            rcases hin with h | h
            · rcases hhead with g | g <;> omega
            · rcases htab with g | g <;> omega
          rw [hm3]
          simp only [memcpy, blit, hout, if_false]
          exact hs a hin
        obtain ⟨st1, h1, ht1, hs1, hf1⟩ := ih (i + 1) st3 hs3 (by omega)
        refine ⟨st1, ?_, ?_, hs1, ?_⟩
        · simp only [load_loop, hh, hi, if_true, h3, h1]
        · rw [ht1, ht3, hc, List.range'_succ]
          simp
        · intro a hout
          rw [hf1 a hout, hm3]
          have := hout i hi ha
          simp only [memcpy, blit, this, if_false]
      · have h3 := load_segment_skip K fuel p (program_of m0 p) i st (by rw [he]; exact ha)
        obtain ⟨st1, h1, ht1, hs1, hf1⟩ := ih (i + 1) st hs (by omega)
        refine ⟨st1, ?_, ?_, hs1, hf1⟩
        · simp only [load_loop, hh, hi, if_true, h3, h1]
        · rw [ht1, hc, List.range'_succ, List.flatMap_cons, segEvents_of_skipped p _ ha]
          simp
    · refine ⟨st, ?_, ?_, hs, fun _ _ => rfl⟩
      · simp only [load_loop, hh, hi, if_false]
      · have hc : (read_header m0 p).e_phnum - i = 0 := by omega
        rw [hc]
        simp

theorem sameImage_refl (m : Mem) (p : Nat) : sameImage m p m := fun _ _ => rfl

/-- A run of `load` on a well-placed image: it returns the `e_entry` of the header, its
calls are those of the table in order, the header and the table are as before, and so
is every byte outside the destinations of the entries acted on. -/
theorem load_runs {σ : Type} (K : Collab σ) (fuel p size : Nat) (st : State σ)
    (hw : wellPlaced st.mem p) (hfuel : 2 ^ 52 < fuel) :
    ∃ st1, load K fuel p size st = some ((read_header st.mem p).e_entry, st1)
      ∧ st1.trace = st.trace ++ tableEvents st.mem p
      ∧ sameImage st.mem p st1.mem
      ∧ ∀ a, outsideSegments st.mem p a → st1.mem a = st.mem a := by
  have hN := e_phnum_lt st.mem p
  obtain ⟨st1, h1, ht1, hs1, hf1⟩ := load_loop_runs K fuel p st.mem hw hfuel fuel 0 st
    (sameImage_refl _ _) (by omega)
  refine ⟨st1, ?_, ?_, hs1, hf1⟩
  · have := h1
    unfold program_of at this
    simp only [load, this, sameImage_header _ _ _ hs1]
  · rw [ht1, tableEvents, List.range_eq_range']
    simp

/-! ## What any run of `load` issues -/

theorem onlyUserOps_refl {σ : Type} (st : State σ) : onlyUserOps st st :=
  ⟨[], by simp, fun _ h => absurd h (List.not_mem_nil _)⟩

theorem onlyUserOps_trans {σ : Type} {a b c : State σ} (h1 : onlyUserOps a b)
    (h2 : onlyUserOps b c) : onlyUserOps a c := by
  obtain ⟨e1, t1, u1⟩ := h1
  obtain ⟨e2, t2, u2⟩ := h2
  refine ⟨e1 ++ e2, by rw [t2, t1, List.append_assoc], ?_⟩
  intro ev hev
  rcases List.mem_append.1 hev with h | h
  · exact u1 ev h
  · exact u2 ev h

theorem for_pages_userOps {σ : Type} (body : Nat → State σ → State σ)
    (bound : State σ → Nat) (step : Nat)
    (hbody : ∀ b s, onlyUserOps s (body b s)) :
    ∀ (fuel b : Nat) (st st1 : State σ),
      for_pages body bound step fuel b st = some st1 → onlyUserOps st st1 := by
  intro fuel
  induction fuel with
  | zero => intro b st st1 h; simp [for_pages] at h
  | succ n ih =>
    intro b st st1 h
    by_cases hbe : b < bound st
    · simp only [for_pages, hbe, if_true] at h
      exact onlyUserOps_trans (hbody b st) (ih _ _ _ h)
    · simp only [for_pages, hbe, if_false, Option.some.injEq] at h
      rw [← h]
      exact onlyUserOps_refl st

theorem map_body_userOps {σ : Type} (K : Collab σ) (b : Nat) (s : State σ) :
    onlyUserOps s (map_body K b s) :=
  ⟨[Event.vm_map b true true true], rfl, by simp [Event.isUserOp]⟩

theorem protect_body_userOps {σ : Type} (K : Collab σ) (r w x : Bool) (b : Nat)
    (s : State σ) : onlyUserOps s (protect_body K r w x b s) :=
  ⟨[Event.vm_protect b r w x], rfl, by simp [Event.isUserOp]⟩

theorem user_map_body_userOps {σ : Type} (K : Collab σ) (b : Nat) (s : State σ) :
    onlyUserOps s (user_map_body K b s) :=
  ⟨[Event.vm_map b true true false], rfl, by simp [Event.isUserOp]⟩

theorem load_segment_userOps {σ : Type} (K : Collab σ) (fuel p program i : Nat)
    (st st1 : State σ) (h : load_segment K fuel p program i st = some st1) :
    onlyUserOps st st1 := by
  unfold load_segment at h
  simp only [] at h
  split at h
  · simp only [Option.some.injEq] at h
    rw [← h]; exact onlyUserOps_refl st
  · split at h
    · simp only [Option.some.injEq] at h
      rw [← h]; exact onlyUserOps_refl st
    · split at h
      · exact Option.noConfusion h
      · rename_i sa ha
        split at h
        · exact Option.noConfusion h
        · rename_i sb hb
          simp only [Option.some.injEq] at h
          have h1 := for_pages_userOps _ _ _ (map_body_userOps K) _ _ _ _ ha
          have h2 := for_pages_userOps _ _ _ (protect_body_userOps K _ _ _) _ _ _ _ hb
          have hmid : onlyUserOps sa
              { sa with
                mem := memcpy sa.mem (read_program st.mem (entry_addr program i)).p_vaddr
                  ((p + (read_program st.mem (entry_addr program i)).p_offset) % 2 ^ 64)
                  (read_program sa.mem (entry_addr program i)).p_memsz
                trace := sa.trace ++ [Event.memcpy
                  (read_program st.mem (entry_addr program i)).p_vaddr
                  ((p + (read_program st.mem (entry_addr program i)).p_offset) % 2 ^ 64)
                  (read_program sa.mem (entry_addr program i)).p_memsz] } :=
            ⟨_, rfl, by simp [Event.isUserOp]⟩
          have h3 := onlyUserOps_trans h1 (onlyUserOps_trans hmid h2)
          obtain ⟨evs, ht, hu⟩ := h3
          exact ⟨evs, by rw [← h]; exact ht, hu⟩

theorem load_loop_userOps {σ : Type} (K : Collab σ) (fuel p program : Nat) :
    ∀ (n i : Nat) (st st1 : State σ), load_loop K fuel p program n i st = some st1 →
      onlyUserOps st st1 := by
  intro n
  induction n with
  | zero => intro i st st1 h; simp [load_loop] at h
  | succ n ih =>
    intro i st st1 h
    by_cases hi : i < (read_header st.mem p).e_phnum
    · simp only [load_loop, hi, if_true] at h
      split at h
      · exact Option.noConfusion h
      · rename_i sa ha
        exact onlyUserOps_trans (load_segment_userOps K fuel p program i st sa ha) (ih _ _ _ h)
    · simp only [load_loop, hi, if_false, Option.some.injEq] at h
      rw [← h]
      exact onlyUserOps_refl st

/-- Whatever the image, a run of `load` that returns has issued only `vm_map`,
`vm_protect` and copies. -/
theorem load_userOps {σ : Type} (K : Collab σ) (fuel p size : Nat) (st : State σ)
    (r : Nat × State σ) (h : load K fuel p size st = some r) : onlyUserOps st r.2 := by
  unfold load at h
  simp only [] at h
  split at h
  · exact Option.noConfusion h
  · rename_i sa ha
    simp only [Option.some.injEq] at h
    rw [← h]
    exact load_loop_userOps K fuel p _ _ _ _ _ ha

/-- A run of `load` whose first table entry is acted on and has its loop bound above
the last page boundary returns for no amount of fuel. -/
theorem load_first_diverges {σ : Type} (K : Collab σ) (fuel p size : Nat) (st : State σ)
    (hN : 0 < (read_header st.mem p).e_phnum) (ha : acted (phdr st.mem p 0))
    (hb : 2 ^ 64 - 4096 <
      ((phdr st.mem p 0).p_vaddr + (phdr st.mem p 0).p_memsz) % 2 ^ 64) :
    load K fuel p size st = none := by
  cases fuel with
  | zero => simp [load, load_loop]
  | succ n =>
    have hd := load_segment_diverges K (n + 1) p (program_of st.mem p) 0 st _ rfl ha hb
    unfold program_of at hd
    simp only [load, load_loop, hN, if_true, hd]

/-! ## `exec_module` -/

theorem strlen_eq (m : Nat → Nat) :
    ∀ (n fuel a : Nat), isCString m a n → n < fuel → strlen m fuel a = some n := by
  intro n
  induction n with
  | zero =>
    intro fuel a h hf
    cases fuel with
    | zero => omega
    | succ f =>
      have h0 : m a = 0 := by simpa using h.2
      simp [strlen, h0]
  | succ n ih =>
    intro fuel a h hf
    cases fuel with
    | zero => omega
    | succ f =>
      have h0 : m a ≠ 0 := by simpa using h.1 0 (by omega)
      have hrec : isCString m (a + 1) n := by
        constructor
        · intro k hk
          have := h.1 (k + 1) (by omega)
          rwa [show a + 1 + k = a + (k + 1) by omega]
        · have := h.2
          rwa [show a + 1 + n = a + (n + 1) by omega]
      simp [strlen, h0, ih f (a + 1) hrec (by omega)]

theorem runOver_user {σ : Type} (K : Collab σ) (ps : List Nat) :
    ∀ st : State σ, (runOver (user_map_body K) ps st).trace =
        st.trace ++ ps.map (fun b => Event.vm_map b true true false)
      ∧ (runOver (user_map_body K) ps st).mem = st.mem := by
  induction ps with
  | nil => intro st; simp [runOver]
  | cons a t ih =>
    intro st
    have h := ih (user_map_body K a st)
    simp only [runOver, List.foldl_cons] at h ⊢
    rw [h.1, h.2]
    simp [user_map_body]

theorem stack_pages : pageSeq 0x70000000000 ((0x70000000000 + 8 * PAGE_SIZE) % 2 ^ 64) =
    (List.range 8).map (fun k => 0x70000000000 + k * 4096) := by
  decide

/-- The stack loop of `exec_module` ends after its eight pages. -/
theorem stack_loop {σ : Type} (K : Collab σ) (fuel : Nat) (st : State σ) (hfuel : 8 < fuel) :
    ∃ st4, for_pages (user_map_body K) (fun _ => (0x70000000000 + 8 * PAGE_SIZE) % 2 ^ 64)
        0x1000 fuel 0x70000000000 st = some st4
      ∧ st4.trace = st.trace ++ stackMaps ∧ st4.mem = st.mem := by
  have he : (0x70000000000 + 8 * PAGE_SIZE) % 2 ^ 64 ≤ 2 ^ 64 - 4096 := by decide
  have hc : ((0x70000000000 + 8 * PAGE_SIZE) % 2 ^ 64 - 0x70000000000 + 4095) / 4096 < fuel := by
    have : ((0x70000000000 + 8 * PAGE_SIZE) % 2 ^ 64 - 0x70000000000 + 4095) / 4096 = 8 := by
      decide
    omega
  refine ⟨_, for_pages_ends (user_map_body K)
    (fun _ => (0x70000000000 + 8 * PAGE_SIZE) % 2 ^ 64) (fun _ _ => rfl) fuel _ st he hc,
    ?_, ?_⟩
  · rw [(runOver_user K _ _).1, stack_pages]
    simp [stackMaps]
  · exact (runOver_user K _ _).2

/-- A launch whose argument is `NULL` or a string of length `n`, whose call of `load`
returns `entry`, and whose local array still holds the saved string at that point:
the launch reaches `usermode_entry`, and this is its trace and its store. -/
theorem exec_module_runs {σ : Type} (K : Collab σ) (fuel : Nat) (module : stivale2_module)
    (argument arg n : Nat) (st : State σ) (entry : Nat) (st3 : State σ)
    (hstr : argument ≠ 0 → isCString st.mem argument n) (hn : n ≤ 512) (hfuel : 512 < fuel)
    (hload : load K fuel module.begin ((module.end_ + 2 ^ 64 - module.begin) % 2 ^ 64)
      (beforeLoad K argument arg n st) = some (entry, st3))
    (hkept : argument ≠ 0 → ∀ k, k ≤ n → st3.mem (arg + k) = st.mem (argument + k)) :
    ∃ r, exec_module K fuel module argument arg st = some r
      ∧ r.trace = st3.trace ++ stackMaps
          ++ [Event.vm_map 0x60000000000 true true false]
          ++ [argCopy argument n]
          ++ [Event.usermode_entry (K.USER_DATA_SELECTOR ||| 0x3) 0x70000007ff8
                (K.USER_CODE_SELECTOR ||| 0x3) entry 0x60000000000]
      ∧ (argument ≠ 0 → ∀ k, k ≤ n → r.mem (0x60000000000 + k) = st.mem (argument + k))
      ∧ (argument = 0 → r.mem 0x60000000000 = 0)
      ∧ (∀ a, ¬ (0x60000000000 ≤ a ∧ a < 0x60000000000 + (n + 1)) → r.mem a = st3.mem a) := by
  have hsp : (0x70000000000 + 8 * PAGE_SIZE - 8) % 2 ^ 64 = 0x70000007ff8 := by decide
  obtain ⟨st4, h4, ht4, hm4⟩ := stack_loop K fuel st3 (by omega)
  by_cases hptr : argument = 0
  · subst hptr
    have hsave : save_argument fuel 0 arg st = some st := by
      simp [save_argument]
    have hb : beforeLoad K 0 arg n st = unmap_step K st := by
      simp [beforeLoad]
    rw [hb] at hload
    unfold exec_module
    simp only [hsave, hload, h4, copy_argument, ne_eq, not_true_eq_false, if_false]
    refine ⟨_, rfl, ?_, ?_, ?_, ?_⟩
    · simp only [user_map_body, ht4, hsp, argCopy, ne_eq, not_true_eq_false, if_false,
        List.append_assoc]
    · intro h; exact False.elim h
    · intro _
      simp [blit]
    · intro a ha
      have h1 : ¬ (0x60000000000 ≤ a ∧ a < 0x60000000000 + 1) := by omega
      simp [blit, h1, user_map_body, hm4]
  · have hs := hstr hptr
    have hsave : save_argument fuel argument arg st =
        some { st with
               mem := memcpy st.mem arg argument (n + 1)
               trace := st.trace ++ [Event.save_arg (n + 1)] } := by
      simp [save_argument, hptr, strlen_eq st.mem n fuel argument hs (by omega)]
    have hb : beforeLoad K argument arg n st = unmap_step K
        { st with
          mem := memcpy st.mem arg argument (n + 1)
          trace := st.trace ++ [Event.save_arg (n + 1)] } := by
      simp [beforeLoad, hptr]
    rw [hb] at hload
    have hk := hkept hptr
    have hcs : isCString (user_map_body K 0x60000000000 st4).mem arg n := by
      constructor
      · intro k hk1
        show st4.mem (arg + k) ≠ 0
        rw [hm4, hk k (by omega)]
        exact hs.1 k hk1
      · show st4.mem (arg + n) = 0
        rw [hm4, hk n (by omega)]
        exact hs.2
    have hcopy := strlen_eq _ n fuel arg hcs (by omega)
    unfold exec_module
    simp only [hsave, hload, h4, copy_argument, hptr, ne_eq, not_false_eq_true, if_true,
      hcopy]
    refine ⟨_, rfl, ?_, ?_, ?_, ?_⟩
    · simp only [user_map_body, ht4, hsp, argCopy, hptr, ne_eq, not_false_eq_true, if_true,
        List.append_assoc]
    · intro _ k hkn
      have hin : k < n + 1 := by omega
      simp only [memcpy, blit, Nat.le_add_right, Nat.add_lt_add_iff_left, hin, and_self,
        if_true, Nat.add_sub_cancel_left]
      show st4.mem (arg + k) = _
      rw [hm4, hk k hkn]
    · intro h; exact False.elim h
    · intro a ha
      simp only [memcpy, blit, ha, if_false]
      show st4.mem a = _
      rw [hm4]

/-! ## The pages of a range -/

theorem segPages_eq_rangePages (ph : elf_program_t)
    (hsum : ph.p_vaddr + ph.p_memsz ≤ 2 ^ 64 - 4096) : segPages ph = rangePages ph := by
  have h1 : ph.p_vaddr &&& 0xFFFFFFFFFFFFF000 = floor_to_page ph.p_vaddr :=
    land_page_of_lt (by omega)
  have h2 : (ph.p_vaddr + ph.p_memsz) % 2 ^ 64 = ph.p_vaddr + ph.p_memsz :=
    Nat.mod_eq_of_lt (by omega)
  unfold segPages rangePages
  rw [h1, h2]

theorem mem_rangePages (ph : elf_program_t) (x : Nat) :
    x ∈ rangePages ph ↔
      (x % 4096 = 0 ∧ floor_to_page ph.p_vaddr ≤ x ∧ x < ph.p_vaddr + ph.p_memsz) := by
  unfold rangePages
  rw [mem_pageSeq]
  unfold floor_to_page
  constructor
  · rintro ⟨k, hk, hx⟩
    omega
  · rintro ⟨h0, h1, h2⟩
    exact ⟨(x - (ph.p_vaddr - ph.p_vaddr % 4096)) / 4096, by omega, h2⟩

/-! ## C1: the bytes a segment is loaded with -/

/-- C1, the code at segment B (8 bytes of file content, `0x1000` bytes of memory) in a
file filled with `0xAA` after the table, every mapping succeeding and the destination
zero before the call: `load` copies `p_memsz` bytes, so the destination bytes from
`p_vaddr + p_filesz` on hold what follows the segment in the file, not zero. -/
theorem load_copies_past_filesz :
    ∃ r, load idealCollab 3 0x200000 0x3000 (boot fileMem) = some r
      ∧ r.2.trace = [Event.vm_map 0x2000 true true true, Event.memcpy 0x2000 0x202000 0x1000,
          Event.vm_protect 0x2000 true true false]
      ∧ r.2.log = [LogMsg.segment 1 0x2000 0x8 0x1000 0x2000]
      ∧ r.2.mem 0x2007 = 0xAA ∧ r.2.mem 0x2008 = 0xAA ∧ r.2.mem 0x2FFF = 0xAA
      ∧ fileMem 0x2008 = 0 ∧ fileMem 0x2FFF = 0 := by
  have hs : (load idealCollab 3 0x200000 0x3000 (boot fileMem)).map
        (fun r => (r.2.trace, r.2.log, r.2.mem 0x2007, r.2.mem 0x2008, r.2.mem 0x2FFF))
      = some ([Event.vm_map 0x2000 true true true, Event.memcpy 0x2000 0x202000 0x1000,
          Event.vm_protect 0x2000 true true false], [LogMsg.segment 1 0x2000 0x8 0x1000 0x2000],
          0xAA, 0xAA, 0xAA) := by
    decide
  obtain ⟨r, hr, hv⟩ := Option.map_eq_some'.1 hs
  simp only [Prod.mk.injEq] at hv
  exact ⟨r, hr, hv.1, hv.2.1, hv.2.2.1, hv.2.2.2.1, hv.2.2.2.2, by decide, by decide⟩

/-! ## C2: the pages requested for a segment -/

/-- C2 (amended): let `program[i]` be loadable with `p_memsz > 0` and
`p_vaddr + p_memsz ≤ 2^64 - 4096`.  The first page loop of `load` ends; it requests from
`vm_map`, in order, exactly the addresses `floor_to_page(p_vaddr) + 4096 * k` below
`p_vaddr + p_memsz`; these are the page-aligned addresses from `floor_to_page(p_vaddr)`
up to `p_vaddr + p_memsz`, and every address of `[p_vaddr, p_vaddr + p_memsz)` lies in
the page starting at one of them.  When the destination does not overlap the entry
itself, the whole iteration ends: after the mappings it copies, then requests
`vm_protect` for the same addresses. -/
theorem load_segment_maps_cover {σ : Type} (K : Collab σ) (fuel p program i : Nat)
    (st : State σ) (ph : elf_program_t)
    (hph : read_program st.mem (entry_addr program i) = ph)
    (ht : ph.p_type = 1) (hm : 0 < ph.p_memsz)
    (hsum : ph.p_vaddr + ph.p_memsz ≤ 2 ^ 64 - 4096) (hfuel : ph.p_memsz / 4096 + 2 < fuel) :
    (∃ st1, map_loop K fuel ph.p_vaddr (entry_addr program i) st = some st1
        ∧ st1.trace = st.trace
            ++ (pageSeq (floor_to_page ph.p_vaddr) (ph.p_vaddr + ph.p_memsz)).map
                (fun b => Event.vm_map b true true true))
      ∧ (∀ x, x ∈ pageSeq (floor_to_page ph.p_vaddr) (ph.p_vaddr + ph.p_memsz) ↔
          (x % 4096 = 0 ∧ floor_to_page ph.p_vaddr ≤ x ∧ x < ph.p_vaddr + ph.p_memsz))
      ∧ (∀ a, ph.p_vaddr ≤ a → a < ph.p_vaddr + ph.p_memsz →
          ∃ x, x ∈ pageSeq (floor_to_page ph.p_vaddr) (ph.p_vaddr + ph.p_memsz)
            ∧ x ≤ a ∧ a < x + 4096)
      ∧ (apartFrom ph (entry_addr program i) (entry_addr program i + 56) →
          ∃ st3, load_segment K fuel p program i st = some st3
            ∧ st3.trace = st.trace
                ++ (pageSeq (floor_to_page ph.p_vaddr) (ph.p_vaddr + ph.p_memsz)).map
                    (fun b => Event.vm_map b true true true)
                ++ [Event.memcpy ph.p_vaddr ((p + ph.p_offset) % 2 ^ 64) ph.p_memsz]
                ++ (pageSeq (floor_to_page ph.p_vaddr) (ph.p_vaddr + ph.p_memsz)).map
                    (fun b => Event.vm_protect b (decide (ph.p_flags &&& PF_R ≠ 0))
                      (decide (ph.p_flags &&& PF_W ≠ 0)) (decide (ph.p_flags &&& PF_X ≠ 0)))) := by
  have hv : ph.p_vaddr < 2 ^ 64 := by omega
  have hacted : acted ph := ⟨ht, by omega⟩
  have hpages : segPages ph = pageSeq (floor_to_page ph.p_vaddr) (ph.p_vaddr + ph.p_memsz) :=
    segPages_eq_rangePages ph hsum
  have hcount : ((ph.p_vaddr + ph.p_memsz) - (ph.p_vaddr &&& 0xFFFFFFFFFFFFF000) + 4095)
      / 4096 < fuel := by
    rw [land_page_of_lt hv]
    omega
  have hmem := mem_rangePages ph
  unfold rangePages at hmem
  refine ⟨?_, hmem, ?_, ?_⟩
  · obtain ⟨st1, h1, ht1, _⟩ := map_loop_runs K fuel (entry_addr program i) st ph hph hsum hcount
    exact ⟨st1, h1, by rw [ht1, hpages]⟩
  · intro a ha1 ha2
    refine ⟨a - a % 4096, (hmem _).2 ?_, ?_, ?_⟩
    · unfold floor_to_page
      omega
    · omega
    · omega
  · intro hself
    obtain ⟨st3, h3, ht3, _⟩ := load_segment_runs K fuel p program i st ph hph hacted hsum
      hself hcount
    refine ⟨st3, h3, ?_⟩
    rw [ht3, segEvents_of_acted p ph hacted, hpages]
    simp only [List.append_assoc]

/-- C2 (amended), at segment B of the two-segment image: one page, `0x2000`. -/
theorem load_segment_maps_cover_witness :
    read_program (boot demoMem).mem (entry_addr 0x200040 3) = segmentB
      ∧ segmentB.p_type = 1 ∧ 0 < segmentB.p_memsz
      ∧ segmentB.p_vaddr + segmentB.p_memsz ≤ 2 ^ 64 - 4096
      ∧ (∃ st1, map_loop idealCollab 4 segmentB.p_vaddr (entry_addr 0x200040 3) (boot demoMem)
            = some st1
          ∧ st1.trace = [Event.vm_map 0x2000 true true true])
      ∧ ∃ st3, load_segment idealCollab 4 0x200000 0x200040 3 (boot demoMem) = some st3
          ∧ st3.trace = [Event.vm_map 0x2000 true true true,
              Event.memcpy 0x2000 0x202000 0x1000, Event.vm_protect 0x2000 true true false] := by
  have hph : read_program (boot demoMem).mem (entry_addr 0x200040 3) = segmentB := by decide
  obtain ⟨⟨st1, h1, ht1⟩, _, _, hfull⟩ := load_segment_maps_cover idealCollab 4 0x200000
    0x200040 3 (boot demoMem) segmentB hph rfl (by decide) (by decide) (by decide)
  obtain ⟨st3, h3, ht3⟩ := hfull (by decide)
  refine ⟨hph, rfl, by decide, by decide, ⟨st1, h1, ?_⟩, st3, h3, ?_⟩
  · rw [ht1]; decide
  · rw [ht3]; decide

/-- C2, as stated, fails: for the loadable segment with `p_vaddr = 0xFFFFFFFFFFFFF000` and
`p_memsz = 0x1000` the bound `p_vaddr + p_memsz` wraps to 0, so `load` requests no page
at all, and the address `p_vaddr` of the segment lies in no requested page. -/
theorem load_top_segment_maps_nothing :
    ∃ r, load idealCollab 2 0x200000 0x2000 (boot topMem) = some r
      ∧ r.2.trace = [Event.memcpy 0xFFFFFFFFFFFFF000 0x201000 0x1000]
      ∧ ¬ ∃ b u w x, Event.vm_map b u w x ∈ r.2.trace
          ∧ b ≤ topSegment.p_vaddr ∧ topSegment.p_vaddr < b + 4096 := by
  have hs : (load idealCollab 2 0x200000 0x2000 (boot topMem)).map (fun r => r.2.trace)
      = some [Event.memcpy 0xFFFFFFFFFFFFF000 0x201000 0x1000] := by decide
  obtain ⟨r, hr, ht⟩ := Option.map_eq_some'.1 hs
  refine ⟨r, hr, ht, ?_⟩
  rintro ⟨b, u, w, x, hmem, _, _⟩
  rw [ht] at hmem
  simp at hmem

/-! ## C5: the value returned by `load` -/

/-- A request for page `x` in the block of an entry means the entry is acted on and
visits `x`. -/
theorem segEvents_request (p : Nat) (ph : elf_program_t) (ev : Event) (x : Nat)
    (hev : ev ∈ segEvents p ph)
    (hreq : (∃ u w e, ev = Event.vm_map x u w e) ∨ (∃ u w e, ev = Event.vm_protect x u w e)) :
    acted ph ∧ x ∈ segPages ph := by
  by_cases hl : acted ph
  · refine ⟨hl, ?_⟩
    rw [segEvents_of_acted p ph hl] at hev
    simp only [List.mem_append, List.mem_map, List.mem_singleton] at hev
    rcases hev with (⟨y, hy, rfl⟩ | rfl) | ⟨y, hy, rfl⟩
    · rcases hreq with ⟨u, w, e, h⟩ | ⟨u, w, e, h⟩
      · injection h with h1
        rw [← h1]; exact hy
      · exact Event.noConfusion h
    · rcases hreq with ⟨u, w, e, h⟩ | ⟨u, w, e, h⟩ <;> exact Event.noConfusion h
    · rcases hreq with ⟨u, w, e, h⟩ | ⟨u, w, e, h⟩
      · exact Event.noConfusion h
      · injection h with h1
        rw [← h1]; exact hy
  · rw [segEvents_of_skipped p ph hl] at hev
    exact absurd hev (List.not_mem_nil _)

theorem beforeLoad_trace {σ : Type} (K : Collab σ) (argument arg n : Nat) (st : State σ) :
    (beforeLoad K argument arg n st).trace =
      st.trace ++ (if argument ≠ 0 then [Event.save_arg (n + 1)] else [])
        ++ [Event.unmap_lower_half] := by
  unfold beforeLoad unmap_step
  by_cases h : argument = 0 <;> simp [h]

theorem stackMaps_userOp : ∀ ev, ev ∈ stackMaps → ev.isUserOp = true := by
  intro ev hev
  obtain ⟨k, _, rfl⟩ := List.mem_map.1 hev
  rfl

theorem argCopy_userOp (argument n : Nat) : (argCopy argument n).isUserOp = true := by
  unfold argCopy
  by_cases h : argument = 0 <;> simp [h, Event.isUserOp]

/-- A launch of a module that `load` handles to the end, with `argument` either `NULL`
or a string of `n ≤ 512` characters, the local array lying in no segment and surviving
the unmap: the run reaches `usermode_entry`; its trace and the bytes it leaves. -/
theorem exec_module_launch {σ : Type} (K : Collab σ) (fuel : Nat) (module : stivale2_module)
    (argument arg n : Nat) (st : State σ)
    (hstr : argument ≠ 0 → isCString st.mem argument n) (hn : n ≤ 512)
    (hfuel : 2 ^ 52 < fuel)
    (hw : wellPlaced (beforeLoad K argument arg n st).mem module.begin)
    (hkeep : argument ≠ 0 → ∀ k, k ≤ n →
      outsideSegments (beforeLoad K argument arg n st).mem module.begin (arg + k)
        ∧ (beforeLoad K argument arg n st).mem (arg + k) = st.mem (argument + k)) :
    ∃ st3 r,
      load K fuel module.begin ((module.end_ + 2 ^ 64 - module.begin) % 2 ^ 64)
          (beforeLoad K argument arg n st)
        = some ((read_header (beforeLoad K argument arg n st).mem module.begin).e_entry, st3)
      ∧ st3.trace = (beforeLoad K argument arg n st).trace
          ++ tableEvents (beforeLoad K argument arg n st).mem module.begin
      ∧ exec_module K fuel module argument arg st = some r
      ∧ r.trace = st3.trace ++ stackMaps
          ++ [Event.vm_map 0x60000000000 true true false]
          ++ [argCopy argument n]
          ++ [Event.usermode_entry (K.USER_DATA_SELECTOR ||| 0x3) 0x70000007ff8
                (K.USER_CODE_SELECTOR ||| 0x3)
                (read_header (beforeLoad K argument arg n st).mem module.begin).e_entry
                0x60000000000]
      ∧ (argument ≠ 0 → ∀ k, k ≤ n → r.mem (0x60000000000 + k) = st.mem (argument + k))
      ∧ (argument = 0 → r.mem 0x60000000000 = 0)
      ∧ (∀ a, outsideSegments (beforeLoad K argument arg n st).mem module.begin a →
          ¬ (0x60000000000 ≤ a ∧ a < 0x60000000000 + (n + 1)) →
          r.mem a = (beforeLoad K argument arg n st).mem a) := by
  obtain ⟨st3, hload, htr3, _, hframe⟩ := load_runs K fuel module.begin
    ((module.end_ + 2 ^ 64 - module.begin) % 2 ^ 64) (beforeLoad K argument arg n st) hw hfuel
  have hkept : argument ≠ 0 → ∀ k, k ≤ n → st3.mem (arg + k) = st.mem (argument + k) := by
    intro hp k hk
    rw [hframe _ (hkeep hp k hk).1]
    exact (hkeep hp k hk).2
  have h512 : 512 < fuel := lt_trans (by norm_num) hfuel
  obtain ⟨r, hr, htr, hb, hz, hfr⟩ := exec_module_runs K fuel module argument arg n st _ st3
    hstr hn h512 hload hkept
  refine ⟨st3, r, hload, htr3, hr, htr, hb, hz, ?_⟩
  intro a ha hna
  rw [hfr a hna, hframe a ha]

/-- A launch without an argument does not return when `load` does not. -/
theorem exec_module_null_diverges {σ : Type} (K : Collab σ) (fuel : Nat)
    (module : stivale2_module) (arg : Nat) (st : State σ)
    (h : load K fuel module.begin ((module.end_ + 2 ^ 64 - module.begin) % 2 ^ 64)
      (unmap_step K st) = none) :
    exec_module K fuel module 0 arg st = none := by
  unfold exec_module save_argument
  simp only [ne_eq, not_true_eq_false, if_false, h]

/-! ## C6: the argument page -/

theorem launchMem_holds : ∀ k (hk : k < ([104, 101, 108, 108, 111] : List Nat).length),
    (boot launchMem).mem (0x5000 + k) = ([104, 101, 108, 108, 111] : List Nat)[k] := by
  intro k hk
  have hk5 : k < 5 := hk
  interval_cases k <;> rfl

theorem poke_outside (a w v : Nat) (m : Mem) (x : Nat) (h : x < a ∨ a + w ≤ x) :
    poke a w v m x = m x := by
  unfold poke
  rw [if_neg]
  omega

theorem put_header_outside (p : Nat) (h : elf_header_t) (m : Mem) (x : Nat)
    (hx : x < p ∨ p + 64 ≤ x) : put_header p h m x = m x := by
  unfold put_header
  iterate 13 rw [poke_outside _ _ _ _ _ (by omega)]

theorem longMem_string : isCString (boot longMem).mem 0x5000 512 := by
  constructor
  · intro k hk
    have e : (boot longMem).mem (0x5000 + k) = 0x41 := by
      show put_header 0xffff800000200000 _ (blit stackMem 0x5000 (fun _ => 0x41) 512)
        (0x5000 + k) = 0x41
      rw [put_header_outside _ _ _ _ (by omega)]
      unfold blit
      rw [if_pos (by omega)]
    rw [e]
    decide
  · decide

/-- C7, the code at a string of 512 characters: the launch is not rejected.  513 bytes
are copied into the 512-byte local array at `0xffff800000300000`, so that the byte
after the array is overwritten (it held `0xCC`, it holds 0); the lower half is
unmapped, the stack and the argument page are mapped, all 513 bytes are copied to the
argument page and `usermode_entry` is reached. -/
theorem exec_module_long_argument_not_rejected :
    ∃ r, exec_module idealCollab (2 ^ 52 + 1) demoModule 0x5000 0xffff800000300000
          (boot longMem) = some r
      ∧ r.trace = [Event.save_arg 513, Event.unmap_lower_half] ++ stackMaps
          ++ [Event.vm_map 0x60000000000 true true false, Event.copy_arg 0x60000000000 513,
              Event.usermode_entry 0x23 0x70000007ff8 0x2b 0x1000 0x60000000000]
      ∧ longMem (0xffff800000300000 + 512) = 0xCC
      ∧ r.mem (0xffff800000300000 + 511) = 0x41 ∧ r.mem (0xffff800000300000 + 512) = 0
      ∧ r.mem (0xffff800000300000 + 513) = 0xCC
      ∧ r.mem (0x60000000000 + 511) = 0x41 ∧ r.mem (0x60000000000 + 512) = 0 := by
  have hN : (read_header
      (beforeLoad idealCollab 0x5000 0xffff800000300000 512 (boot longMem)).mem
      demoModule.begin).e_phnum = 0 := by decide
  have hout : ∀ a, outsideSegments
      (beforeLoad idealCollab 0x5000 0xffff800000300000 512 (boot longMem)).mem
      demoModule.begin a := by
    intro a j hj
    rw [hN] at hj
    exact absurd hj (Nat.not_lt_zero j)
  obtain ⟨st3, r, _, htr3, hr, htr, hb, _, hfr⟩ := exec_module_launch idealCollab (2 ^ 52 + 1)
    demoModule 0x5000 0xffff800000300000 512 (boot longMem) (fun _ => longMem_string)
    (le_refl _) (by norm_num) (fun j hj _ => absurd (hN ▸ hj) (Nat.not_lt_zero j))
    (fun _ k hk => ⟨hout _, by
      have h2 : (0xffff800000300000 : Nat) ≤ 0xffff800000300000 + k
          ∧ 0xffff800000300000 + k < 0xffff800000300000 + (512 + 1) := by omega
      simp only [beforeLoad, unmap_step, idealCollab, memcpy, blit, boot, ne_eq,
        OfNat.ofNat_ne_zero, not_false_eq_true, if_true, h2, and_self,
        Nat.add_sub_cancel_left]⟩)
  have hte : tableEvents
      (beforeLoad idealCollab 0x5000 0xffff800000300000 512 (boot longMem)).mem
      demoModule.begin = [] := by decide
  have he : (read_header
      (beforeLoad idealCollab 0x5000 0xffff800000300000 512 (boot longMem)).mem
      demoModule.begin).e_entry = 0x1000 := by decide
  refine ⟨r, hr, ?_, by decide, ?_, ?_, ?_, ?_, ?_⟩
  · rw [htr, htr3, beforeLoad_trace, hte, he]
    rfl
  · rw [hfr _ (hout _) (by omega)]; decide
  · rw [hfr _ (hout _) (by omega)]; decide
  · rw [hfr _ (hout _) (by omega)]; decide
  · rw [hb (by decide) 511 (by norm_num)]; decide
  · rw [hb (by decide) 512 (by norm_num)]; decide

/-! ## C10: masking and unmasking an IRQ line -/

theorem testBit_byte_high {m j : Nat} (hm : m < 256) (hj : ¬ j < 8) : m.testBit j = false := by
  apply Nat.testBit_lt_two_pow
  calc m < 2 ^ 8 := hm
    _ ≤ 2 ^ j := Nat.pow_le_pow_right (by norm_num) (by omega)

/-- What `mask |= 1 << k` does to a byte: bit `k` is set, every other bit is kept. -/
theorem set_bit_spec (m k : Nat) (hm : m < 256) (hk : k < 8) :
    ((m % 256 ||| (1 <<< k)) % 256).testBit k = true
      ∧ ∀ j, j ≠ k → ((m % 256 ||| (1 <<< k)) % 256).testBit j = m.testBit j := by
  have h256 : (256 : Nat) = 2 ^ 8 := by norm_num
  rw [Nat.mod_eq_of_lt hm, Nat.one_shiftLeft, h256]
  constructor
  · rw [Nat.testBit_mod_two_pow, Nat.testBit_or, Nat.testBit_two_pow_self]
    simp [hk]
  · intro j hj
    rw [Nat.testBit_mod_two_pow, Nat.testBit_or, Nat.testBit_two_pow_of_ne (Ne.symm hj)]
    by_cases h : j < 8
    · simp [h]
    · simp [h, testBit_byte_high hm h]

/-- What `mask &= ~(1 << k)` does to a byte: bit `k` is cleared, every other bit is kept. -/
theorem clear_bit_spec (m k : Nat) (hm : m < 256) (hk : k < 8) :
    ((m % 256 &&& (2 ^ 32 - 1 - (1 <<< k))) % 256).testBit k = false
      ∧ ∀ j, j ≠ k → ((m % 256 &&& (2 ^ 32 - 1 - (1 <<< k))) % 256).testBit j = m.testBit j := by
  have h256 : (256 : Nat) = 2 ^ 8 := by norm_num
  have hlt : 2 ^ k < 2 ^ 32 := Nat.pow_lt_pow_right (by norm_num) (by omega)
  have hsub : 2 ^ 32 - 1 - 2 ^ k = 2 ^ 32 - (2 ^ k + 1) := by omega
  rw [Nat.mod_eq_of_lt hm, Nat.one_shiftLeft, h256, hsub]
  constructor
  · rw [Nat.testBit_mod_two_pow, Nat.testBit_and, Nat.testBit_two_pow_sub_succ hlt,
      Nat.testBit_two_pow_self]
    simp
  · intro j hj
    rw [Nat.testBit_mod_two_pow, Nat.testBit_and, Nat.testBit_two_pow_sub_succ hlt,
      Nat.testBit_two_pow_of_ne (Ne.symm hj)]
    by_cases h : j < 8
    · have h32 : j < 32 := by omega
      simp [h, h32]
    · simp [h, testBit_byte_high hm h]

/-- C10: let `num < 16`, let `port` be the data port of the owning PIC (`PIC1_DATA` for
`num < 8`, else `PIC2_DATA`) and let it hold an 8-bit mask.  Then `pic_mask_irq` reads
`port` and writes back the mask with bit `num mod 8` set, `pic_unmask_irq` reads `port`
and writes back the mask with bit `num mod 8` cleared; every other bit is as it was, no
other port is read or written; and unmasking after masking leaves in `port` the mask
with that bit clear and every other bit as it was.  For `num ≥ 16` neither function
reads or writes a port. -/
theorem pic_mask_unmask_bits (PIC1_DATA PIC2_DATA num : Nat) (io : Ports) :
    (num < 16 → ∀ port, port = (if num < 8 then PIC1_DATA else PIC2_DATA) →
      io.reg port < 256 →
      ∃ v u w,
        pic_mask_irq PIC1_DATA PIC2_DATA num io =
            { reg := fun q => if q = port then v else io.reg q
              trace := io.trace ++ [PortEvent.inb port, PortEvent.outb port v] }
        ∧ v.testBit (num % 8) = true
        ∧ (∀ j, j ≠ num % 8 → v.testBit j = (io.reg port).testBit j)
        ∧ pic_unmask_irq PIC1_DATA PIC2_DATA num io =
            { reg := fun q => if q = port then u else io.reg q
              trace := io.trace ++ [PortEvent.inb port, PortEvent.outb port u] }
        ∧ u.testBit (num % 8) = false
        ∧ (∀ j, j ≠ num % 8 → u.testBit j = (io.reg port).testBit j)
        ∧ (pic_unmask_irq PIC1_DATA PIC2_DATA num
            (pic_mask_irq PIC1_DATA PIC2_DATA num io)).reg port = w
        ∧ w.testBit (num % 8) = false
        ∧ (∀ j, j ≠ num % 8 → w.testBit j = (io.reg port).testBit j))
      ∧ (16 ≤ num → pic_mask_irq PIC1_DATA PIC2_DATA num io = io
          ∧ pic_unmask_irq PIC1_DATA PIC2_DATA num io = io) := by
  constructor
  · intro hnum port hport hm
    -- the shift count is `num` for the primary PIC and `num - 8` for the secondary one
    have hk : ∃ k, k = num % 8 ∧ k < 8 ∧ (num < 8 → k = num) ∧ (¬ num < 8 → k = num - 8) :=
      ⟨num % 8, rfl, by omega, by omega, by omega⟩
    obtain ⟨k, hkm, hk8, hk1, hk2⟩ := hk
    rw [← hkm]
    have hv8 : (io.reg port % 256 ||| (1 <<< k)) % 256 < 256 := Nat.mod_lt _ (by norm_num)
    obtain ⟨hs1, hs2⟩ := set_bit_spec (io.reg port) k hm hk8
    obtain ⟨hc1, hc2⟩ := clear_bit_spec (io.reg port) k hm hk8
    obtain ⟨hw1, hw2⟩ := clear_bit_spec ((io.reg port % 256 ||| (1 <<< k)) % 256) k hv8 hk8
    refine ⟨(io.reg port % 256 ||| (1 <<< k)) % 256,
      (io.reg port % 256 &&& (2 ^ 32 - 1 - (1 <<< k))) % 256,
      (((io.reg port % 256 ||| (1 <<< k)) % 256) % 256 &&& (2 ^ 32 - 1 - (1 <<< k))) % 256,
      ?_, hs1, hs2, ?_, hc1, hc2, ?_, hw1, ?_⟩
    · by_cases h8 : num < 8
      · have hp : port = PIC1_DATA := by simpa [h8] using hport
        simp [pic_mask_irq, inb, outb, h8, hp, hk1 h8]
      · have hp : port = PIC2_DATA := by simpa [h8] using hport
        simp [pic_mask_irq, inb, outb, h8, hnum, hp, hk2 h8]
    · by_cases h8 : num < 8
      · have hp : port = PIC1_DATA := by simpa [h8] using hport
        simp [pic_unmask_irq, inb, outb, h8, hp, hk1 h8]
      · have hp : port = PIC2_DATA := by simpa [h8] using hport
        simp [pic_unmask_irq, inb, outb, h8, hnum, hp, hk2 h8]
    · by_cases h8 : num < 8
      · have hp : port = PIC1_DATA := by simpa [h8] using hport
        simp [pic_unmask_irq, pic_mask_irq, inb, outb, h8, hp, hk1 h8]
      · have hp : port = PIC2_DATA := by simpa [h8] using hport
        simp [pic_unmask_irq, pic_mask_irq, inb, outb, h8, hnum, hp, hk2 h8]
    · intro j hj
      rw [hw2 j hj, hs2 j hj]
  · intro hnum
    have h8 : ¬ num < 8 := by omega
    have h16 : ¬ num < 16 := by omega
    simp [pic_mask_irq, pic_unmask_irq, h8, h16]

/-- C10, at IRQ 10 with the secondary data port `0xA1` holding `0xF0`: masking writes
`0xF4`, unmasking writes `0xF0`, and only port `0xA1` is read and written. -/
theorem pic_mask_unmask_bits_witness :
    (10 < 16) ∧ demoPorts.reg 0xA1 < 256
      ∧ (∃ v u w,
          pic_mask_irq 0x21 0xA1 10 demoPorts =
              { reg := fun q => if q = 0xA1 then v else demoPorts.reg q
                trace := demoPorts.trace ++ [PortEvent.inb 0xA1, PortEvent.outb 0xA1 v] }
          ∧ v.testBit (10 % 8) = true
          ∧ (∀ j, j ≠ 10 % 8 → v.testBit j = (demoPorts.reg 0xA1).testBit j)
          ∧ pic_unmask_irq 0x21 0xA1 10 demoPorts =
              { reg := fun q => if q = 0xA1 then u else demoPorts.reg q
                trace := demoPorts.trace ++ [PortEvent.inb 0xA1, PortEvent.outb 0xA1 u] }
          ∧ u.testBit (10 % 8) = false
          ∧ (∀ j, j ≠ 10 % 8 → u.testBit j = (demoPorts.reg 0xA1).testBit j)
          ∧ (pic_unmask_irq 0x21 0xA1 10 (pic_mask_irq 0x21 0xA1 10 demoPorts)).reg 0xA1 = w
          ∧ w.testBit (10 % 8) = false
          ∧ (∀ j, j ≠ 10 % 8 → w.testBit j = (demoPorts.reg 0xA1).testBit j))
      ∧ (pic_mask_irq 0x21 0xA1 10 demoPorts).trace = [PortEvent.inb 0xA1, PortEvent.outb 0xA1 0xF4]
      ∧ (pic_mask_irq 0x21 0xA1 10 demoPorts).reg 0x21 = 0xFF
      ∧ (pic_unmask_irq 0x21 0xA1 10 (pic_mask_irq 0x21 0xA1 10 demoPorts)).reg 0xA1 = 0xF0 :=
  ⟨by decide, by decide,
    (pic_mask_unmask_bits 0x21 0xA1 10 demoPorts).1 (by decide) 0xA1 rfl (by decide),
    by decide, by decide, by decide⟩

end Kernel
